import Mathlib

/-!
Shallow embedding of the layer-normalization kernel in
src/rust_llm/src/llm/train_gpt2.rs (functions layernorm_forward and
layernorm_backward), together with theorems checking the specification
claims against it.

Modelling conventions:
* f32 arithmetic is idealized as arithmetic in an arbitrary field.  The one
  non-field scalar primitive, powf applied to the exponent -0.5, is kept
  abstract: every definition is parameterized by a function pnh standing for
  fun x => x ^ (-1/2).  Structural theorems hold for every interpretation of
  pnh; the concrete numeric check instantiates the field with the reals and
  pnh with the real power function.
* Rust slices become Lean lists.  Slice indexing and slicing panic in Rust
  when out of bounds; this is modelled by running the kernel in the Option
  monad, where getF, setF and sliceF return none exactly when the
  corresponding Rust operation would panic.  A call that completes returns
  some of the final buffer contents.
* Buffers mutated through a mutable borrow are threaded through the state
  records FwdBufs and BwdBufs; buffers taken by shared (immutable) borrow
  are plain parameters.
-/

/-- Checked read, modelling Rust slice indexing xs[i], which panics out of
bounds. -/
def getF {α : Type} (xs : List α) (i : Nat) : Option α := xs[i]?

/-- Checked write, modelling the Rust assignment xs[i] = v, which panics out
of bounds. -/
def setF {α : Type} (xs : List α) (i : Nat) (v : α) : Option (List α) :=
  if i < xs.length then some (xs.set i v) else none

/-- Checked subslice, modelling the Rust expression xs[start..stop], which
panics unless start ≤ stop ≤ xs.len(). -/
def sliceF {α : Type} (xs : List α) (start stop : Nat) : Option (List α) :=
  if start ≤ stop ∧ stop ≤ xs.length then some ((xs.drop start).take (stop - start))
  else none

/-- Loop combinator: run the body f over a list of loop indices, threading
the state and propagating failure, exactly as a Rust for-loop over those
indices would. -/
def loopM {σ : Type} (f : Nat → σ → Option σ) : List Nat → σ → Option σ
  | [], s => some s
  | i :: rest, s =>
    match f i s with
    | none => none
    | some s2 => loopM f rest s2

/-- Embedding of the source constant EPS, the Rust literal 1e-5. -/
def EPS {α : Type} [Field α] : α := 1 / 100000

/-- Buffers the forward pass mutates (&mut parameters out, mean_array,
rstd_array of layernorm_forward). -/
structure FwdBufs (α : Type) where
  out : List α
  mean_array : List α
  rstd_array : List α
deriving DecidableEq, Repr

/-- Buffers the backward pass mutates (&mut parameters dinp, dweight, dbias
of layernorm_backward; dout is declared &mut in the source but never
written, so it stays a plain parameter here, matching the absence of writes). -/
structure BwdBufs (α : Type) where
  dinp : List α
  dweight : List α
  dbias : List α
deriving DecidableEq, Repr

/-- Inner channel loop of layernorm_forward: for i in 0..channels, read
inp[x_offset_start + i], weights[i], biases[i], and write
out[x_offset_start + i] = (inp[..] - mean) * rstd * weights[i] + biases[i]. -/
def fwdChannels {α : Type} [Field α] (mean rstd : α) (inp weights biases : List α)
    (x_offset_start : Nat) : List Nat → List α → Option (List α)
  | [], out => some out
  | i :: rest, out =>
    match getF inp (x_offset_start + i), getF weights i, getF biases i with
    | some x, some w, some bi =>
      match setF out (x_offset_start + i) ((x - mean) * rstd * w + bi) with
      | some out2 => fwdChannels mean rstd inp weights biases x_offset_start rest out2
      | none => none
    | _, _, _ => none

/-- Body of layernorm_forward for one position: slice inp at
[x_offset_start, x_offset_start + channels), compute mean, variance and
rstd exactly as the source does (sum / C, fold of squared deviations / C,
pnh of variance + EPS), run the channel loop, then store mean and rstd at
index statIdx of the statistics buffers.  In the source x_offset_start is
b*T*C + t*C and statIdx is b*T + t. -/
def fwdPosAt {α : Type} [Field α] (pnh : α → α) (inp weights biases : List α)
    (channels : Nat) (x_offset_start statIdx : Nat) (st : FwdBufs α) :
    Option (FwdBufs α) :=
  match sliceF inp x_offset_start (x_offset_start + channels) with
  | none => none
  | some xs =>
    let mean : α := xs.sum / (channels : α)
    let variance : α := (xs.foldl (fun acc x => acc + (x - mean) ^ 2) 0) / (channels : α)
    let rstd : α := pnh (variance + EPS)
    match fwdChannels mean rstd inp weights biases x_offset_start
        (List.range channels) st.out with
    | none => none
    | some out2 =>
      match setF st.mean_array statIdx mean with
      | none => none
      | some ma =>
        match setF st.rstd_array statIdx rstd with
        | none => none
        | some ra => some ⟨out2, ma, ra⟩

/-- Embedding of layernorm_forward: the nested loops over b_idx and t_idx,
with the offsets b*T*C + t*C and b*T + t written as in the source. -/
def layernorm_forward {α : Type} [Field α] (pnh : α → α)
    (inp weights biases : List α) (batch_size sequence_length channels : Nat)
    (st : FwdBufs α) : Option (FwdBufs α) :=
  loopM (fun b_idx st =>
      loopM (fun t_idx st =>
          fwdPosAt pnh inp weights biases channels
            (b_idx * sequence_length * channels + t_idx * channels)
            (b_idx * sequence_length + t_idx) st)
        (List.range sequence_length) st)
    (List.range batch_size) st

/-- First reduction pass of layernorm_backward: for each channel i read
input[i + sequence_offset], weights[i], dout[sequence_offset + i], form
norm_bti = (input[..] - mean_bt) * rstd_bt and dnorm_i = weights[i] *
dout[..], and accumulate the two running sums. -/
def bwdReduce {α : Type} [Field α] (mean_bt rstd_bt : α)
    (input weights dout : List α) (sequence_offset : Nat) :
    List Nat → α → α → Option (α × α)
  | [], dnorm_mean, dnorm_norm_mean => some (dnorm_mean, dnorm_norm_mean)
  | i :: rest, dnorm_mean, dnorm_norm_mean =>
    match getF input (i + sequence_offset), getF weights i,
        getF dout (sequence_offset + i) with
    | some x, some w, some g =>
      let norm_bti := (x - mean_bt) * rstd_bt
      let dnorm_i := w * g
      bwdReduce mean_bt rstd_bt input weights dout sequence_offset rest
        (dnorm_mean + dnorm_i) (dnorm_norm_mean + dnorm_i * norm_bti)
    | _, _, _ => none

/-- Second pass of layernorm_backward: for each channel i recompute norm_bti
and dnorm_i, then accumulate dout[..] into dbias[i], norm_bti * dout[..]
into dweight[i], and dval = (0 + dnorm_i - dnorm_mean - norm_bti *
dnorm_norm_mean) * rstd_bt into dinp[i + sequence_offset], in the order the
source performs the writes. -/
def bwdAccum {α : Type} [Field α] (mean_bt rstd_bt dnorm_mean dnorm_norm_mean : α)
    (input weights dout : List α) (sequence_offset : Nat) :
    List Nat → BwdBufs α → Option (BwdBufs α)
  | [], st => some st
  | i :: rest, st =>
    match getF input (i + sequence_offset), getF weights i,
        getF dout (sequence_offset + i) with
    | some x, some w, some g =>
      let norm_bti := (x - mean_bt) * rstd_bt
      let dnorm_i := w * g
      match getF st.dbias i with
      | none => none
      | some db =>
        match setF st.dbias i (db + g) with
        | none => none
        | some dbias2 =>
          match getF st.dweight i with
          | none => none
          | some dw =>
            match setF st.dweight i (dw + norm_bti * g) with
            | none => none
            | some dweight2 =>
              match getF st.dinp (i + sequence_offset) with
              | none => none
              | some di =>
                let dval : α :=
                  (0 + dnorm_i - dnorm_mean - norm_bti * dnorm_norm_mean) * rstd_bt
                match setF st.dinp (i + sequence_offset) (di + dval) with
                | none => none
                | some dinp2 =>
                  bwdAccum mean_bt rstd_bt dnorm_mean dnorm_norm_mean input weights
                    dout sequence_offset rest ⟨dinp2, dweight2, dbias2⟩
    | _, _, _ => none

/-- Body of layernorm_backward for one position, the source's batch_offset
being b*T + t: read means[batch_offset] and rstds[batch_offset], run the
first reduction pass over range channels starting from the sums 0 and 0,
divide both sums by channels, then run the accumulation pass. -/
def bwdPosAt {α : Type} [Field α] (input weights dout means rstds : List α)
    (channels batch_offset : Nat) (st : BwdBufs α) : Option (BwdBufs α) :=
  let sequence_offset := channels * batch_offset
  match getF means batch_offset, getF rstds batch_offset with
  | some mean_bt, some rstd_bt =>
    match bwdReduce mean_bt rstd_bt input weights dout sequence_offset
        (List.range channels) 0 0 with
    | none => none
    | some (dnorm_mean, dnorm_norm_mean) =>
      bwdAccum mean_bt rstd_bt (dnorm_mean / (channels : α))
        (dnorm_norm_mean / (channels : α)) input weights dout sequence_offset
        (List.range channels) st
  | _, _ => none

/-- Embedding of layernorm_backward: the nested loops over batch_index and
t_index with batch_offset = batch_index * sequence_length + t_index. -/
def layernorm_backward {α : Type} [Field α] (input weights dout means rstds : List α)
    (batch_size sequence_length channels : Nat) (st : BwdBufs α) :
    Option (BwdBufs α) :=
  loopM (fun batch_index st =>
      loopM (fun t_index st =>
          bwdPosAt input weights dout means rstds channels
            (batch_index * sequence_length + t_index) st)
        (List.range sequence_length) st)
    (List.range batch_size) st

/-- Whole-argument state of a layernorm_forward call: the three &mut buffers
together with the three shared-borrow buffers. -/
structure FwdWorld (α : Type) where
  out : List α
  mean_array : List α
  rstd_array : List α
  inp : List α
  weights : List α
  biases : List α
deriving DecidableEq, Repr

/-- Whole-argument state of a layernorm_backward call. -/
structure BwdWorld (α : Type) where
  dinp : List α
  dweight : List α
  dbias : List α
  dout : List α
  input : List α
  weights : List α
  means : List α
  rstds : List α
deriving DecidableEq, Repr

/-- Forward call viewed as a transformer of all eight argument buffers: the
&mut buffers receive the computed values, the shared-borrow buffers pass
through, mirroring the borrow split of the Rust signature and the absence of
any write to inp, weights or biases in the body. -/
def layernorm_forward_world {α : Type} [Field α] (pnh : α → α)
    (batch_size sequence_length channels : Nat) (w : FwdWorld α) :
    Option (FwdWorld α) :=
  (layernorm_forward pnh w.inp w.weights w.biases batch_size sequence_length channels
      ⟨w.out, w.mean_array, w.rstd_array⟩).map
    fun st => { w with out := st.out, mean_array := st.mean_array,
                       rstd_array := st.rstd_array }

/-- Backward call viewed as a transformer of all argument buffers: dinp,
dweight and dbias receive the accumulated values; dout (despite being &mut
in the source it is only ever read), input, weights, means and rstds pass
through. -/
def layernorm_backward_world {α : Type} [Field α]
    (batch_size sequence_length channels : Nat) (w : BwdWorld α) :
    Option (BwdWorld α) :=
  (layernorm_backward w.input w.weights w.dout w.means w.rstds
      batch_size sequence_length channels ⟨w.dinp, w.dweight, w.dbias⟩).map
    fun st => { w with dinp := st.dinp, dweight := st.dweight, dbias := st.dbias }

/-- Arithmetic mean the source computes at flat position p: sum of the
channel slice divided by channels. -/
def flatMean {α : Type} [Field α] (inp : List α) (channels p : Nat) : α :=
  ((inp.drop (p * channels)).take channels).sum / (channels : α)

/-- Biased variance the source computes at flat position p: mean of squared
deviations over the channel slice, dividing by channels. -/
def flatVar {α : Type} [Field α] (inp : List α) (channels p : Nat) : α :=
  (((inp.drop (p * channels)).take channels).map
      (fun x => (x - flatMean inp channels p) ^ 2)).sum / (channels : α)

/-- Normalized value norm_bti reconstructed by the backward pass at flat
position p, channel i, from the saved statistics. -/
def bwdNorm {α : Type} [Field α] (input means rstds : List α)
    (channels p i : Nat) : α :=
  (input.getD (channels * p + i) 0 - means.getD p 0) * rstds.getD p 0

/-- Value dnorm_i of the backward pass at flat position p, channel i. -/
def bwdDnorm {α : Type} [Field α] (weights dout : List α)
    (channels p i : Nat) : α :=
  weights.getD i 0 * dout.getD (channels * p + i) 0

/-- Finalized first-pass average dnorm_mean at flat position p. -/
def bwdDnormMean {α : Type} [Field α] (weights dout : List α)
    (channels p : Nat) : α :=
  ((List.range channels).map (fun i => bwdDnorm weights dout channels p i)).sum
    / (channels : α)

/-- Finalized first-pass average dnorm_norm_mean at flat position p. -/
def bwdDnormNormMean {α : Type} [Field α] (input weights dout means rstds : List α)
    (channels p : Nat) : α :=
  ((List.range channels).map (fun i =>
      bwdDnorm weights dout channels p i * bwdNorm input means rstds channels p i)).sum
    / (channels : α)

/-- Elementwise sum of two backward gradient states. -/
def bufsAdd {α : Type} [Field α] (st d : BwdBufs α) : BwdBufs α :=
  ⟨List.zipWith (· + ·) st.dinp d.dinp,
   List.zipWith (· + ·) st.dweight d.dweight,
   List.zipWith (· + ·) st.dbias d.dbias⟩

/-- Modelled from the spec: forward reciprocal standard deviation with a
caller-chosen epsilon, following the words "rstd = (variance +
epsilon)^(−1/2)" with epsilon "supplied by the caller at each invocation".
The source has no such parameter; this definition exists to compare the
claim of a configurable epsilon against the hard-coded constant EPS. -/
def specRstdWithEps {α : Type} [Field α] (pnh : α → α) (eps : α)
    (inp : List α) (channels p : Nat) : α :=
  pnh (flatVar inp channels p + eps)

/-! ### Basic lemmas about the checked-access primitives -/

theorem getF_lt {α : Type} (xs : List α) (i : Nat) (d : α)
    (h : i < xs.length) : getF xs i = some (xs.getD i d) := by
  simp [getF, List.getD_eq_getElem?_getD, List.getElem?_eq_getElem h]

theorem setF_lt {α : Type} (xs : List α) (i : Nat) (v : α)
    (h : i < xs.length) : setF xs i v = some (xs.set i v) := by
  simp [setF, h]

theorem foldl_add_eq {α β : Type} [AddCommMonoid α] (f : β → α) :
    ∀ (l : List β) (a : α),
      l.foldl (fun acc x => acc + f x) a = a + (l.map f).sum
  | [], a => by simp
  | x :: l, a => by
    rw [List.foldl_cons, foldl_add_eq f l (a + f x)]
    simp [add_assoc]

/-! ### Characterization of the forward channel loop -/

theorem fwdChannels_spec {α : Type} [Field α] (mean rstd : α)
    (inp weights biases : List α) (start : Nat) :
    ∀ (n k : Nat) (out : List α),
      start + k + n ≤ inp.length → start + k + n ≤ out.length →
      k + n ≤ weights.length → k + n ≤ biases.length →
      ∃ out2,
        fwdChannels mean rstd inp weights biases start (List.range' k n) out
          = some out2 ∧
        out2.length = out.length ∧
        (∀ i, k ≤ i → i < k + n →
          out2[start + i]? =
            some ((inp.getD (start + i) 0 - mean) * rstd * weights.getD i 0
              + biases.getD i 0)) ∧
        (∀ j, j < start + k ∨ start + k + n ≤ j → out2[j]? = out[j]?) := by
  intro n
  induction n with
  | zero =>
    intro k out _ _ _ _
    refine ⟨out, rfl, rfl, ?_, fun j _ => rfl⟩
    intro i h1 h2
    omega
  | succ n ih =>
    intro k out hi ho hw hb
    rw [List.range'_succ]
    have hik : start + k < inp.length := by omega
    have hok : start + k < out.length := by omega
    have hwk : k < weights.length := by omega
    have hbk : k < biases.length := by omega
    have hrec := ih (k + 1) (out.set (start + k)
      ((inp.getD (start + k) 0 - mean) * rstd * weights.getD k 0
        + biases.getD k 0))
      (by omega) (by rw [List.length_set]; omega) (by omega) (by omega)
    obtain ⟨out2, hrun, hlen, hform, hpres⟩ := hrec
    refine ⟨out2, ?_, ?_, ?_, ?_⟩
    · simp only [fwdChannels, getF_lt inp (start + k) 0 hik,
        getF_lt weights k 0 hwk, getF_lt biases k 0 hbk,
        setF_lt out (start + k)
          ((inp.getD (start + k) 0 - mean) * rstd * weights.getD k 0
            + biases.getD k 0) hok]
      exact hrun
    · rw [hlen, List.length_set]
    · intro i h1 h2
      rcases Nat.lt_or_ge i (k + 1) with hc | hc
      · have hik3 : i = k := by omega
        rw [hik3, hpres (start + k) (Or.inl (by omega)),
          List.getElem?_set_eq_of_lt _ hok]
      · exact hform i hc (by omega)
    · intro j hj
      rw [hpres j (by omega), List.getElem?_set_ne (by omega)]

/-! ### Characterization of one forward position -/

theorem fwdPosAt_spec {α : Type} [Field α] (pnh : α → α)
    (inp weights biases : List α) (C p : Nat) (st : FwdBufs α)
    (hi : p * C + C ≤ inp.length) (ho : p * C + C ≤ st.out.length)
    (hw : C ≤ weights.length) (hb : C ≤ biases.length)
    (hm : p < st.mean_array.length) (hr : p < st.rstd_array.length) :
    ∃ st2, fwdPosAt pnh inp weights biases C (p * C) p st = some st2 ∧
      st2.out.length = st.out.length ∧
      st2.mean_array.length = st.mean_array.length ∧
      st2.rstd_array.length = st.rstd_array.length ∧
      st2.mean_array[p]? = some (flatMean inp C p) ∧
      st2.rstd_array[p]? = some (pnh (flatVar inp C p + EPS)) ∧
      (∀ i, i < C →
        st2.out[p * C + i]? =
          some ((inp.getD (p * C + i) 0 - flatMean inp C p)
            * pnh (flatVar inp C p + EPS) * weights.getD i 0
            + biases.getD i 0)) ∧
      (∀ j, j < p * C ∨ p * C + C ≤ j → st2.out[j]? = st.out[j]?) ∧
      (∀ q, q ≠ p → st2.mean_array[q]? = st.mean_array[q]? ∧
        st2.rstd_array[q]? = st.rstd_array[q]?) := by
  have hslice : sliceF inp (p * C) (p * C + C)
      = some ((inp.drop (p * C)).take C) := by
    rw [sliceF, if_pos ⟨by omega, hi⟩, Nat.add_sub_cancel_left]
  have hmean : ((inp.drop (p * C)).take C).sum / (C : α) = flatMean inp C p := rfl
  have hvar : (((inp.drop (p * C)).take C).foldl
      (fun acc x => acc + (x - flatMean inp C p) ^ 2) 0) / (C : α)
      = flatVar inp C p := by
    rw [foldl_add_eq, zero_add]; rfl
  obtain ⟨out2, hrun, hlen, hform, hpres⟩ :=
    fwdChannels_spec (flatMean inp C p) (pnh (flatVar inp C p + EPS))
      inp weights biases (p * C) C 0 st.out (by omega) (by omega)
      (by omega) (by omega)
  refine ⟨⟨out2, st.mean_array.set p (flatMean inp C p),
    st.rstd_array.set p (pnh (flatVar inp C p + EPS))⟩, ?_, ?_, ?_, ?_, ?_, ?_,
    ?_, ?_, ?_⟩
  · rw [fwdPosAt, hslice]
    simp only [hmean, hvar]
    rw [← List.range_eq_range'] at hrun
    rw [hrun, setF_lt _ _ _ hm, setF_lt _ _ _ hr]
  · exact hlen
  · exact List.length_set ..
  · exact List.length_set ..
  · exact List.getElem?_set_eq_of_lt _ hm
  · exact List.getElem?_set_eq_of_lt _ hr
  · intro i hiC
    exact hform i (Nat.zero_le i) (by omega)
  · intro j hj
    exact hpres j (by omega)
  · intro q hq
    exact ⟨List.getElem?_set_ne (fun h => hq h.symm),
      List.getElem?_set_ne (fun h => hq h.symm)⟩

/-! ### Generic loop lemmas -/

theorem loopM_append {σ : Type} (f : Nat → σ → Option σ) :
    ∀ (l1 l2 : List Nat) (s : σ),
      loopM f (l1 ++ l2) s =
        match loopM f l1 s with
        | none => none
        | some s2 => loopM f l2 s2
  | [], l2, s => by simp [loopM]
  | i :: rest, l2, s => by
    rw [List.cons_append, loopM, loopM]
    cases f i s with
    | none => rfl
    | some s2 => exact loopM_append f rest l2 s2

theorem loopM_congr {σ : Type} {f g : Nat → σ → Option σ}
    (h : ∀ i s, f i s = g i s) : ∀ (l : List Nat) (s : σ), loopM f l s = loopM g l s
  | [], s => rfl
  | i :: rest, s => by
    rw [loopM, loopM, h i s]
    cases g i s with
    | none => rfl
    | some s2 => exact loopM_congr h rest s2

theorem loopM_single {σ : Type} (f : Nat → σ → Option σ) (i : Nat) (s : σ) :
    loopM f [i] s = f i s := by
  rw [loopM]
  cases f i s <;> rfl

theorem loopM_range_shift {σ : Type} (g : Nat → σ → Option σ) (s0 : Nat) :
    ∀ (n k : Nat) (st : σ),
      loopM (fun i st => g (s0 + i) st) (List.range' k n) st
        = loopM g (List.range' (s0 + k) n) st
  | 0, k, st => rfl
  | n + 1, k, st => by
    rw [List.range'_succ, List.range'_succ, loopM, loopM]
    cases g (s0 + k) st with
    | none => rfl
    | some s2 =>
      show loopM (fun i st => g (s0 + i) st) (List.range' (k + 1) n) s2
          = loopM g (List.range' (s0 + k + 1) n) s2
      rw [loopM_range_shift g s0 n (k + 1) s2, Nat.add_assoc]

theorem range'_append_one (s m n : Nat) :
    List.range' s m ++ List.range' (s + m) n = List.range' s (m + n) := by
  have h := List.range'_append s m n 1
  rw [Nat.one_mul] at h
  rw [h, Nat.add_comm n m]

theorem loopM_nested {σ : Type} (g : Nat → σ → Option σ) (T : Nat) :
    ∀ (B : Nat) (st : σ),
      loopM (fun b st => loopM (fun t st => g (b * T + t) st) (List.range T) st)
        (List.range B) st = loopM g (List.range (B * T)) st
  | 0, st => by simp [loopM, List.range_zero, Nat.zero_mul]
  | B + 1, st => by
    rw [List.range_succ, loopM_append, loopM_nested g T B st]
    have hsplit : List.range ((B + 1) * T) =
        List.range (B * T) ++ List.range' (B * T) T := by
      rw [Nat.succ_mul, List.range_eq_range', List.range_eq_range',
        ← range'_append_one 0 (B * T) T, Nat.zero_add]
    rw [hsplit, loopM_append]
    cases loopM g (List.range (B * T)) st with
    | none => rfl
    | some s2 =>
      show loopM (fun b st => loopM (fun t st => g (b * T + t) st) (List.range T) st)
            [B] s2
          = loopM g (List.range' (B * T) T) s2
      rw [loopM_single]
      have h2 := loopM_range_shift g (B * T) T 0 s2
      rw [Nat.add_zero] at h2
      rw [← h2, List.range_eq_range']

/-! ### Characterization of the forward position loop and of
layernorm_forward itself -/

theorem fwd_flat_spec {α : Type} [Field α] (pnh : α → α)
    (inp weights biases : List α) (C : Nat)
    (hw : C ≤ weights.length) (hb : C ≤ biases.length) :
    ∀ (n P : Nat) (st : FwdBufs α),
      (P + n) * C ≤ inp.length → (P + n) * C ≤ st.out.length →
      P + n ≤ st.mean_array.length → P + n ≤ st.rstd_array.length →
      ∃ st2,
        loopM (fun p st => fwdPosAt pnh inp weights biases C (p * C) p st)
          (List.range' P n) st = some st2 ∧
        st2.out.length = st.out.length ∧
        st2.mean_array.length = st.mean_array.length ∧
        st2.rstd_array.length = st.rstd_array.length ∧
        (∀ p, P ≤ p → p < P + n →
          st2.mean_array[p]? = some (flatMean inp C p) ∧
          st2.rstd_array[p]? = some (pnh (flatVar inp C p + EPS)) ∧
          ∀ i, i < C →
            st2.out[p * C + i]? =
              some ((inp.getD (p * C + i) 0 - flatMean inp C p)
                * pnh (flatVar inp C p + EPS) * weights.getD i 0
                + biases.getD i 0)) ∧
        (∀ j, j < P * C ∨ (P + n) * C ≤ j → st2.out[j]? = st.out[j]?) ∧
        (∀ q, q < P ∨ P + n ≤ q → st2.mean_array[q]? = st.mean_array[q]? ∧
          st2.rstd_array[q]? = st.rstd_array[q]?) := by
  intro n
  induction n with
  | zero =>
    intro P st _ _ _ _
    refine ⟨st, rfl, rfl, rfl, rfl, ?_, fun j _ => rfl, fun q _ => ⟨rfl, rfl⟩⟩
    intro p h1 h2
    omega
  | succ n ih =>
    intro P st hi ho hm hr
    have hmul : (P + (n + 1)) * C = P * C + n * C + C := by ring
    have hmul2 : (P + 1 + n) * C = P * C + n * C + C := by ring
    have hmul3 : (P + 1) * C = P * C + C := by ring
    obtain ⟨st1, hrun1, hlo1, hlm1, hlr1, hm1, hr1, hout1, hpo1, hps1⟩ :=
      fwdPosAt_spec pnh inp weights biases C P st (by omega) (by omega)
        hw hb (by omega) (by omega)
    obtain ⟨st2, hrun2, hlo2, hlm2, hlr2, hform2, hpo2, hps2⟩ :=
      ih (P + 1) st1 (by omega) (by omega) (by omega) (by omega)
    refine ⟨st2, ?_, by omega, by omega, by omega, ?_, ?_, ?_⟩
    · rw [List.range'_succ, loopM, hrun1]
      exact hrun2
    · intro p h1 h2
      rcases Nat.lt_or_ge p (P + 1) with hc | hc
      · have hpP : p = P := by omega
        subst hpP
        obtain ⟨hm2, hr2⟩ := hps2 p (Or.inl (by omega))
        refine ⟨by rw [hm2]; exact hm1, by rw [hr2]; exact hr1, ?_⟩
        intro i hiC
        rw [hpo2 (p * C + i) (Or.inl (by omega))]
        exact hout1 i hiC
      · exact hform2 p hc (by omega)
    · intro j hj
      rw [hpo2 j (by omega), hpo1 j (by omega)]
    · intro q hq
      obtain ⟨h1, h2⟩ := hps2 q (by omega)
      obtain ⟨h3, h4⟩ := hps1 q (by omega)
      exact ⟨h1.trans h3, h2.trans h4⟩

theorem fwd_spec {α : Type} [Field α] (pnh : α → α)
    (inp weights biases : List α) (B T C : Nat) (st : FwdBufs α)
    (hi : B * T * C ≤ inp.length) (ho : B * T * C ≤ st.out.length)
    (hw : C ≤ weights.length) (hb : C ≤ biases.length)
    (hm : B * T ≤ st.mean_array.length) (hr : B * T ≤ st.rstd_array.length) :
    ∃ st2, layernorm_forward pnh inp weights biases B T C st = some st2 ∧
      st2.out.length = st.out.length ∧
      st2.mean_array.length = st.mean_array.length ∧
      st2.rstd_array.length = st.rstd_array.length ∧
      (∀ p, p < B * T →
        st2.mean_array[p]? = some (flatMean inp C p) ∧
        st2.rstd_array[p]? = some (pnh (flatVar inp C p + EPS)) ∧
        ∀ i, i < C →
          st2.out[p * C + i]? =
            some ((inp.getD (p * C + i) 0 - flatMean inp C p)
              * pnh (flatVar inp C p + EPS) * weights.getD i 0
              + biases.getD i 0)) ∧
      (∀ j, B * T * C ≤ j → st2.out[j]? = st.out[j]?) ∧
      (∀ q, B * T ≤ q → st2.mean_array[q]? = st.mean_array[q]? ∧
        st2.rstd_array[q]? = st.rstd_array[q]?) := by
  have hflat : layernorm_forward pnh inp weights biases B T C st
      = loopM (fun p st => fwdPosAt pnh inp weights biases C (p * C) p st)
          (List.range (B * T)) st := by
    rw [layernorm_forward,
      ← loopM_nested (fun p st => fwdPosAt pnh inp weights biases C (p * C) p st) T B st]
    refine loopM_congr (fun b stb => ?_) (List.range B) st
    refine loopM_congr (fun t stt => ?_) (List.range T) stb
    rw [Nat.add_mul]
  obtain ⟨st2, hrun, hlo, hlm, hlr, hform, hpo, hps⟩ :=
    fwd_flat_spec pnh inp weights biases C hw hb (B * T) 0 st
      (by rw [Nat.zero_add]; exact hi) (by rw [Nat.zero_add]; exact ho)
      (by omega) (by omega)
  rw [← List.range_eq_range'] at hrun
  rw [← hflat] at hrun
  refine ⟨st2, hrun, hlo, hlm, hlr, ?_, ?_, ?_⟩
  · intro p hp
    exact hform p (Nat.zero_le p) (by omega)
  · intro j hj
    exact hpo j (Or.inr (by rw [Nat.zero_add]; exact hj))
  · intro q hq
    exact hps q (Or.inr (by omega))

/-! ### Characterization of the backward reduction pass -/

theorem bwdReduce_spec {α : Type} [Field α] (mean_bt rstd_bt : α)
    (input weights dout : List α) (seq : Nat) :
    ∀ (n k : Nat) (a b : α),
      seq + k + n ≤ input.length → seq + k + n ≤ dout.length →
      k + n ≤ weights.length →
      bwdReduce mean_bt rstd_bt input weights dout seq (List.range' k n) a b
        = some
          (a + ((List.range' k n).map (fun i =>
              weights.getD i 0 * dout.getD (seq + i) 0)).sum,
           b + ((List.range' k n).map (fun i =>
              weights.getD i 0 * dout.getD (seq + i) 0 *
                ((input.getD (seq + i) 0 - mean_bt) * rstd_bt))).sum) := by
  intro n
  induction n with
  | zero =>
    intro k a b _ _ _
    simp [bwdReduce]
  | succ n ih =>
    intro k a b hi hd hw
    rw [List.range'_succ]
    have hik : k + seq < input.length := by omega
    have hdk : seq + k < dout.length := by omega
    have hwk : k < weights.length := by omega
    rw [bwdReduce, getF_lt input (k + seq) 0 hik, getF_lt weights k 0 hwk,
      getF_lt dout (seq + k) 0 hdk]
    show bwdReduce mean_bt rstd_bt input weights dout seq (List.range' (k + 1) n)
        (a + weights.getD k 0 * dout.getD (seq + k) 0)
        (b + weights.getD k 0 * dout.getD (seq + k) 0 *
          ((input.getD (k + seq) 0 - mean_bt) * rstd_bt)) = _
    rw [ih (k + 1) _ _ (by omega) (by omega) (by omega), Nat.add_comm k seq]
    simp only [List.map_cons, List.sum_cons]
    congr 1
    congr 1
    · ring
    · ring

/-! ### Characterization of the backward accumulation pass -/

theorem bwdAccum_spec {α : Type} [Field α] (mean_bt rstd_bt dm dnm : α)
    (input weights dout : List α) (seq : Nat) :
    ∀ (n k : Nat) (st : BwdBufs α),
      seq + k + n ≤ input.length → seq + k + n ≤ dout.length →
      seq + k + n ≤ st.dinp.length → k + n ≤ weights.length →
      k + n ≤ st.dweight.length → k + n ≤ st.dbias.length →
      ∃ st2,
        bwdAccum mean_bt rstd_bt dm dnm input weights dout seq
          (List.range' k n) st = some st2 ∧
        st2.dinp.length = st.dinp.length ∧
        st2.dweight.length = st.dweight.length ∧
        st2.dbias.length = st.dbias.length ∧
        (∀ i, k ≤ i → i < k + n →
          st2.dbias[i]? = some (st.dbias.getD i 0 + dout.getD (seq + i) 0) ∧
          st2.dweight[i]? = some (st.dweight.getD i 0 +
            (input.getD (seq + i) 0 - mean_bt) * rstd_bt * dout.getD (seq + i) 0) ∧
          st2.dinp[seq + i]? = some (st.dinp.getD (seq + i) 0 +
            (0 + weights.getD i 0 * dout.getD (seq + i) 0 - dm -
              (input.getD (seq + i) 0 - mean_bt) * rstd_bt * dnm) * rstd_bt)) ∧
        (∀ j, j < seq + k ∨ seq + k + n ≤ j → st2.dinp[j]? = st.dinp[j]?) ∧
        (∀ j, j < k ∨ k + n ≤ j →
          st2.dweight[j]? = st.dweight[j]? ∧ st2.dbias[j]? = st.dbias[j]?) := by
  intro n
  induction n with
  | zero =>
    intro k st _ _ _ _ _ _
    refine ⟨st, rfl, rfl, rfl, rfl, ?_, fun j _ => rfl, fun j _ => ⟨rfl, rfl⟩⟩
    intro i h1 h2
    omega
  | succ n ih =>
    intro k st hi hdo hdi hw hdw hdb
    rw [List.range'_succ]
    have hik : k + seq < input.length := by omega
    have hdk : seq + k < dout.length := by omega
    have hwk : k < weights.length := by omega
    have hdbk : k < st.dbias.length := by omega
    have hdwk : k < st.dweight.length := by omega
    have hdik : k + seq < st.dinp.length := by omega
    obtain ⟨st2, hrun, hldi, hldw, hldb, hform, hpdi, hpwb⟩ :=
      ih (k + 1)
        ⟨st.dinp.set (k + seq) (st.dinp.getD (k + seq) 0 +
            (0 + weights.getD k 0 * dout.getD (seq + k) 0 - dm -
              (input.getD (k + seq) 0 - mean_bt) * rstd_bt * dnm) * rstd_bt),
         st.dweight.set k (st.dweight.getD k 0 +
            (input.getD (k + seq) 0 - mean_bt) * rstd_bt * dout.getD (seq + k) 0),
         st.dbias.set k (st.dbias.getD k 0 + dout.getD (seq + k) 0)⟩
        (by omega)
        (by omega)
        (by simp only [List.length_set]; omega)
        (by omega)
        (by simp only [List.length_set]; omega)
        (by simp only [List.length_set]; omega)
    refine ⟨st2, ?_, ?_, ?_, ?_, ?_, ?_, ?_⟩
    · simp only [bwdAccum, getF_lt input (k + seq) 0 hik, getF_lt weights k 0 hwk,
        getF_lt dout (seq + k) 0 hdk, getF_lt st.dbias k 0 hdbk,
        setF_lt st.dbias k (st.dbias.getD k 0 + dout.getD (seq + k) 0) hdbk,
        getF_lt st.dweight k 0 hdwk,
        setF_lt st.dweight k (st.dweight.getD k 0 +
          (input.getD (k + seq) 0 - mean_bt) * rstd_bt * dout.getD (seq + k) 0) hdwk,
        getF_lt st.dinp (k + seq) 0 hdik,
        setF_lt st.dinp (k + seq) (st.dinp.getD (k + seq) 0 +
          (0 + weights.getD k 0 * dout.getD (seq + k) 0 - dm -
            (input.getD (k + seq) 0 - mean_bt) * rstd_bt * dnm) * rstd_bt) hdik]
      exact hrun
    · rw [hldi]; simp [List.length_set]
    · rw [hldw]; simp [List.length_set]
    · rw [hldb]; simp [List.length_set]
    · intro i h1 h2
      rcases Nat.lt_or_ge i (k + 1) with hc | hc
      · have hik3 : i = k := by omega
        subst hik3
        obtain ⟨hw1, hb1⟩ := hpwb i (Or.inl (by omega))
        refine ⟨?_, ?_, ?_⟩
        · rw [hb1]
          show (st.dbias.set i (st.dbias.getD i 0 + dout.getD (seq + i) 0))[i]? = _
          rw [List.getElem?_set_eq_of_lt _ hdbk]
        · rw [hw1]
          show (st.dweight.set i _)[i]? = _
          rw [List.getElem?_set_eq_of_lt _ hdwk]
          rw [Nat.add_comm i seq]
        · rw [hpdi (seq + i) (Or.inl (by omega))]
          show (st.dinp.set (i + seq) _)[seq + i]? = _
          rw [Nat.add_comm i seq, List.getElem?_set_eq_of_lt _ (by omega)]
      · obtain ⟨h1b, h2b, h3b⟩ := hform i hc (by omega)
        refine ⟨?_, ?_, ?_⟩
        · rw [h1b]
          show some ((st.dbias.set k _).getD i 0 + _) = _
          rw [List.getD_eq_getElem?_getD, List.getElem?_set_ne (by omega),
            ← List.getD_eq_getElem?_getD]
        · rw [h2b]
          show some ((st.dweight.set k _).getD i 0 + _) = _
          rw [List.getD_eq_getElem?_getD, List.getElem?_set_ne (by omega),
            ← List.getD_eq_getElem?_getD]
        · rw [h3b]
          show some ((st.dinp.set (k + seq) _).getD (seq + i) 0 + _) = _
          rw [List.getD_eq_getElem?_getD, List.getElem?_set_ne (by omega),
            ← List.getD_eq_getElem?_getD]
    · intro j hj
      rw [hpdi j (by omega)]
      show (st.dinp.set (k + seq) _)[j]? = _
      rw [List.getElem?_set_ne (by omega)]
    · intro j hj
      obtain ⟨hw1, hb1⟩ := hpwb j (by omega)
      constructor
      · rw [hw1]
        show (st.dweight.set k _)[j]? = _
        rw [List.getElem?_set_ne (by omega)]
      · rw [hb1]
        show (st.dbias.set k _)[j]? = _
        rw [List.getElem?_set_ne (by omega)]

/-! ### Characterization of one backward position -/

theorem bwdPosAt_spec {α : Type} [Field α] (input weights dout means rstds : List α)
    (C p : Nat) (st : BwdBufs α)
    (hin : C * p + C ≤ input.length) (hdo : C * p + C ≤ dout.length)
    (hdi : C * p + C ≤ st.dinp.length) (hw : C ≤ weights.length)
    (hdw : C ≤ st.dweight.length) (hdb : C ≤ st.dbias.length)
    (hm : p < means.length) (hr : p < rstds.length) :
    ∃ st2, bwdPosAt input weights dout means rstds C p st = some st2 ∧
      st2.dinp.length = st.dinp.length ∧
      st2.dweight.length = st.dweight.length ∧
      st2.dbias.length = st.dbias.length ∧
      (∀ i, i < C →
        st2.dbias[i]? = some (st.dbias.getD i 0 + dout.getD (C * p + i) 0) ∧
        st2.dweight[i]? = some (st.dweight.getD i 0 +
          bwdNorm input means rstds C p i * dout.getD (C * p + i) 0) ∧
        st2.dinp[C * p + i]? = some (st.dinp.getD (C * p + i) 0 +
          (0 + bwdDnorm weights dout C p i - bwdDnormMean weights dout C p -
            bwdNorm input means rstds C p i *
              bwdDnormNormMean input weights dout means rstds C p)
            * rstds.getD p 0)) ∧
      (∀ j, j < C * p ∨ C * p + C ≤ j → st2.dinp[j]? = st.dinp[j]?) ∧
      (∀ j, C ≤ j → st2.dweight[j]? = st.dweight[j]? ∧ st2.dbias[j]? = st.dbias[j]?) := by
  have hred := bwdReduce_spec (means.getD p 0) (rstds.getD p 0) input weights dout
    (C * p) C 0 0 0 (by omega) (by omega) (by omega)
  obtain ⟨st2, hrun, h1, h2, h3, hform, hpdi, hpwb⟩ :=
    bwdAccum_spec (means.getD p 0) (rstds.getD p 0)
      (bwdDnormMean weights dout C p)
      (bwdDnormNormMean input weights dout means rstds C p)
      input weights dout (C * p) C 0 st (by omega) (by omega) (by omega)
      (by omega) (by omega) (by omega)
  have e1 : ((0 : α) + ((List.range' 0 C).map (fun i =>
      weights.getD i 0 * dout.getD (C * p + i) 0)).sum) / (C : α)
      = bwdDnormMean weights dout C p := by
    rw [zero_add]
    simp only [bwdDnormMean, bwdDnorm, List.range_eq_range']
  have e2 : ((0 : α) + ((List.range' 0 C).map (fun i =>
      weights.getD i 0 * dout.getD (C * p + i) 0 *
        ((input.getD (C * p + i) 0 - means.getD p 0) * rstds.getD p 0))).sum) / (C : α)
      = bwdDnormNormMean input weights dout means rstds C p := by
    rw [zero_add]
    simp only [bwdDnormNormMean, bwdDnorm, bwdNorm, List.range_eq_range']
  refine ⟨st2, ?_, h1, h2, h3, ?_, ?_, ?_⟩
  · simp only [bwdPosAt, getF_lt means p 0 hm, getF_lt rstds p 0 hr,
      List.range_eq_range', hred, e1, e2]
    exact hrun
  · intro i hi
    obtain ⟨hb, hw2, hd⟩ := hform i (Nat.zero_le i) (by omega)
    refine ⟨hb, ?_, ?_⟩
    · simp only [bwdNorm]
      exact hw2
    · simp only [bwdNorm, bwdDnorm]
      exact hd
  · intro j hj
    exact hpdi j (by omega)
  · intro j hj
    exact hpwb j (by omega)

/-! ### Characterization of the backward position loop and of
layernorm_backward itself -/

theorem bwd_flat_spec {α : Type} [Field α] (input weights dout means rstds : List α)
    (C : Nat) (hw : C ≤ weights.length) :
    ∀ (n P : Nat) (st : BwdBufs α),
      (P + n) * C ≤ input.length → (P + n) * C ≤ dout.length →
      (P + n) * C ≤ st.dinp.length → C ≤ st.dweight.length → C ≤ st.dbias.length →
      P + n ≤ means.length → P + n ≤ rstds.length →
      ∃ st2,
        loopM (fun p st => bwdPosAt input weights dout means rstds C p st)
          (List.range' P n) st = some st2 ∧
        st2.dinp.length = st.dinp.length ∧
        st2.dweight.length = st.dweight.length ∧
        st2.dbias.length = st.dbias.length ∧
        (∀ j, j < P * C ∨ (P + n) * C ≤ j → st2.dinp[j]? = st.dinp[j]?) ∧
        (∀ j, C ≤ j → st2.dweight[j]? = st.dweight[j]? ∧ st2.dbias[j]? = st.dbias[j]?) := by
  intro n
  induction n with
  | zero =>
    intro P st _ _ _ _ _ _ _
    exact ⟨st, rfl, rfl, rfl, rfl, fun j _ => rfl, fun j _ => ⟨rfl, rfl⟩⟩
  | succ n ih =>
    intro P st hin hdo hdi hdw hdb hm hr
    have ha : (P + (n + 1)) * C = C * P + n * C + C := by ring
    have hb2 : (P + 1 + n) * C = C * P + n * C + C := by ring
    have hc2 : (P + 1) * C = C * P + C := by ring
    have hd2 : P * C = C * P := by ring
    obtain ⟨st1, hrun1, hl1, hl2, hl3, hform1, hpdi1, hpwb1⟩ :=
      bwdPosAt_spec input weights dout means rstds C P st (by omega) (by omega)
        (by omega) hw hdw hdb (by omega) (by omega)
    obtain ⟨st2, hrun2, hk1, hk2, hk3, hpdi2, hpwb2⟩ :=
      ih (P + 1) st1 (by omega) (by omega) (by omega) (by omega) (by omega)
        (by omega) (by omega)
    refine ⟨st2, ?_, by omega, by omega, by omega, ?_, ?_⟩
    · rw [List.range'_succ, loopM, hrun1]
      exact hrun2
    · intro j hj
      rw [hpdi2 j (by omega), hpdi1 j (by omega)]
    · intro j hj
      obtain ⟨hw1, hb1⟩ := hpwb2 j hj
      obtain ⟨hw2, hb3⟩ := hpwb1 j hj
      exact ⟨hw1.trans hw2, hb1.trans hb3⟩

theorem bwd_spec {α : Type} [Field α] (input weights dout means rstds : List α)
    (B T C : Nat) (st : BwdBufs α)
    (hin : B * T * C ≤ input.length) (hdo : B * T * C ≤ dout.length)
    (hdi : B * T * C ≤ st.dinp.length) (hw : C ≤ weights.length)
    (hdw : C ≤ st.dweight.length) (hdb : C ≤ st.dbias.length)
    (hm : B * T ≤ means.length) (hr : B * T ≤ rstds.length) :
    ∃ st2, layernorm_backward input weights dout means rstds B T C st = some st2 ∧
      st2.dinp.length = st.dinp.length ∧
      st2.dweight.length = st.dweight.length ∧
      st2.dbias.length = st.dbias.length ∧
      (∀ j, B * T * C ≤ j → st2.dinp[j]? = st.dinp[j]?) ∧
      (∀ j, C ≤ j → st2.dweight[j]? = st.dweight[j]? ∧ st2.dbias[j]? = st.dbias[j]?) := by
  have hflat : layernorm_backward input weights dout means rstds B T C st
      = loopM (fun p st => bwdPosAt input weights dout means rstds C p st)
          (List.range (B * T)) st := by
    rw [layernorm_backward]
    exact loopM_nested _ T B st
  obtain ⟨st2, hrun, h1, h2, h3, hpdi, hpwb⟩ :=
    bwd_flat_spec input weights dout means rstds C hw (B * T) 0 st
      (by rw [Nat.zero_add]; exact hin) (by rw [Nat.zero_add]; exact hdo)
      (by rw [Nat.zero_add]; exact hdi) hdw hdb (by omega) (by omega)
  rw [← List.range_eq_range', ← hflat] at hrun
  refine ⟨st2, hrun, h1, h2, h3, ?_, hpwb⟩
  intro j hj
  exact hpdi j (Or.inr (by rw [Nat.zero_add]; exact hj))

/-! ### Additivity of the backward pass in the gradient buffers -/

theorem zadd_getElem?_lt {α : Type} [Field α] (a d : List α) (j : Nat)
    (hj : j < a.length) (hlen : d.length = a.length) :
    (List.zipWith (· + ·) a d)[j]? = some (a.getD j 0 + d.getD j 0) := by
  have hjd : j < d.length := by omega
  rw [List.getElem?_zipWith, List.getElem?_eq_getElem hj,
    List.getElem?_eq_getElem hjd, List.getD_eq_getElem?_getD,
    List.getD_eq_getElem?_getD, List.getElem?_eq_getElem hj,
    List.getElem?_eq_getElem hjd]
  rfl

theorem zadd_getElem?_congr {α : Type} [Field α] (a b d : List α) (j : Nat)
    (h : a[j]? = b[j]?) :
    (List.zipWith (· + ·) a d)[j]? = (List.zipWith (· + ·) b d)[j]? := by
  rw [List.getElem?_zipWith, List.getElem?_zipWith, h]

theorem zadd_length {α : Type} [Field α] (a d : List α) (hlen : d.length = a.length) :
    (List.zipWith (· + ·) a d).length = a.length := by
  rw [List.length_zipWith, hlen]
  omega

theorem zadd_getD_lt {α : Type} [Field α] (a d : List α) (j : Nat)
    (hj : j < a.length) (hlen : d.length = a.length) :
    (List.zipWith (· + ·) a d).getD j 0 = a.getD j 0 + d.getD j 0 := by
  rw [List.getD_eq_getElem?_getD, zadd_getElem?_lt a d j hj hlen]
  rfl

theorem zip_add_sub {α : Type} [Field α] (a b : List α) (h : a.length = b.length) :
    List.zipWith (· + ·) a (List.zipWith (fun x y => y - x) a b) = b := by
  apply List.ext_getElem?
  intro j
  rcases Nat.lt_or_ge j a.length with hj | hj
  · have hjb : j < b.length := by omega
    rw [List.getElem?_zipWith, List.getElem?_zipWith,
      List.getElem?_eq_getElem hj, List.getElem?_eq_getElem hjb]
    show some (a[j] + (b[j] - a[j])) = some b[j]
    rw [add_sub_cancel]
  · rw [List.getElem?_zipWith, List.getElem?_eq_none hj,
      List.getElem?_eq_none (show (List.zipWith (fun x y => y - x) a b).length ≤ j by
        rw [List.length_zipWith]; omega),
      List.getElem?_eq_none (show b.length ≤ j by omega)]

attribute [ext] BwdBufs

theorem zadd_window_ext {α : Type} [Field α] (base d x2 x3 : List α)
    (off k n : Nat) (A : Nat → α)
    (ed : d.length = base.length) (l2 : x2.length = base.length)
    (_l3 : x3.length = (List.zipWith (· + ·) base d).length)
    (hform2 : ∀ i, k ≤ i → i < k + n →
      x2[off + i]? = some (base.getD (off + i) 0 + A i))
    (hform3 : ∀ i, k ≤ i → i < k + n →
      x3[off + i]? = some ((List.zipWith (· + ·) base d).getD (off + i) 0 + A i))
    (hp2 : ∀ j, j < off + k ∨ off + k + n ≤ j → x2[j]? = base[j]?)
    (hp3 : ∀ j, j < off + k ∨ off + k + n ≤ j →
      x3[j]? = (List.zipWith (· + ·) base d)[j]?)
    (hbound : off + k + n ≤ base.length) :
    x3 = List.zipWith (· + ·) x2 d := by
  have edx2 : d.length = x2.length := by omega
  apply List.ext_getElem?
  intro j
  by_cases hwin : off + k ≤ j ∧ j < off + k + n
  · obtain ⟨hw1, hw2⟩ := hwin
    have hji : j = off + (j - off) := by omega
    have hjx2 : j < x2.length := by omega
    rw [zadd_getElem?_lt x2 d j hjx2 edx2]
    have hx2v : x2.getD j 0 = base.getD j 0 + A (j - off) := by
      rw [List.getD_eq_getElem?_getD, hji, hform2 (j - off) (by omega) (by omega)]
      rw [← hji]
      rfl
    have hx3v : x3[j]? = some (base.getD j 0 + d.getD j 0 + A (j - off)) := by
      rw [hji, hform3 (j - off) (by omega) (by omega), ← hji,
        zadd_getD_lt base d j (by omega) ed]
    rw [hx3v, hx2v]
    congr 1
    ring
  · have hj2 : j < off + k ∨ off + k + n ≤ j := by omega
    rw [hp3 j hj2, zadd_getElem?_congr x2 base d j (hp2 j hj2)]

theorem bwdAccum_add {α : Type} [Field α] (mean_bt rstd_bt dm dnm : α)
    (input weights dout : List α) (seq : Nat) (n k : Nat) (st d : BwdBufs α)
    (ei : d.dinp.length = st.dinp.length) (ew : d.dweight.length = st.dweight.length)
    (eb : d.dbias.length = st.dbias.length)
    (hin : seq + k + n ≤ input.length) (hdo : seq + k + n ≤ dout.length)
    (hdi : seq + k + n ≤ st.dinp.length) (hw : k + n ≤ weights.length)
    (hdw : k + n ≤ st.dweight.length) (hdb : k + n ≤ st.dbias.length) :
    bwdAccum mean_bt rstd_bt dm dnm input weights dout seq (List.range' k n)
        (bufsAdd st d)
      = Option.map (fun s => bufsAdd s d)
          (bwdAccum mean_bt rstd_bt dm dnm input weights dout seq
            (List.range' k n) st) := by
  obtain ⟨st2, hrun2, g1, g2, g3, gform, gpdi, gpwb⟩ :=
    bwdAccum_spec mean_bt rstd_bt dm dnm input weights dout seq n k st
      hin hdo hdi hw hdw hdb
  have hbi : (bufsAdd st d).dinp.length = st.dinp.length := zadd_length _ _ ei
  have hbw : (bufsAdd st d).dweight.length = st.dweight.length := zadd_length _ _ ew
  have hbb : (bufsAdd st d).dbias.length = st.dbias.length := zadd_length _ _ eb
  obtain ⟨st3, hrun3, f1, f2, f3, fform, fpdi, fpwb⟩ :=
    bwdAccum_spec mean_bt rstd_bt dm dnm input weights dout seq n k (bufsAdd st d)
      hin hdo (by omega) hw (by omega) (by omega)
  rw [hrun3, hrun2, Option.map_some']
  refine congrArg some (BwdBufs.ext ?_ ?_ ?_)
  · exact zadd_window_ext st.dinp d.dinp st2.dinp st3.dinp seq k n
      (fun i => (0 + weights.getD i 0 * dout.getD (seq + i) 0 - dm -
        (input.getD (seq + i) 0 - mean_bt) * rstd_bt * dnm) * rstd_bt)
      ei (by omega) (by rw [f1]; rfl)
      (fun i h1 h2 => (gform i h1 h2).2.2)
      (fun i h1 h2 => (fform i h1 h2).2.2)
      gpdi fpdi (by omega)
  · refine zadd_window_ext st.dweight d.dweight st2.dweight st3.dweight 0 k n
      (fun i => (input.getD (seq + i) 0 - mean_bt) * rstd_bt * dout.getD (seq + i) 0)
      ew (by omega) (by rw [f2]; rfl) ?_ ?_ ?_ ?_ (by omega)
    · intro i h1 h2
      rw [Nat.zero_add]
      exact (gform i h1 h2).2.1
    · intro i h1 h2
      rw [Nat.zero_add]
      exact (fform i h1 h2).2.1
    · intro j hj
      exact (gpwb j (by omega)).1
    · intro j hj
      exact (fpwb j (by omega)).1
  · refine zadd_window_ext st.dbias d.dbias st2.dbias st3.dbias 0 k n
      (fun i => dout.getD (seq + i) 0)
      eb (by omega) (by rw [f3]; rfl) ?_ ?_ ?_ ?_ (by omega)
    · intro i h1 h2
      rw [Nat.zero_add]
      exact (gform i h1 h2).1
    · intro i h1 h2
      rw [Nat.zero_add]
      exact (fform i h1 h2).1
    · intro j hj
      exact (gpwb j (by omega)).2
    · intro j hj
      exact (fpwb j (by omega)).2

theorem bwdPosAt_add {α : Type} [Field α] (input weights dout means rstds : List α)
    (C p : Nat) (st d : BwdBufs α)
    (ei : d.dinp.length = st.dinp.length) (ew : d.dweight.length = st.dweight.length)
    (eb : d.dbias.length = st.dbias.length)
    (hin : C * p + C ≤ input.length) (hdo : C * p + C ≤ dout.length)
    (hdi : C * p + C ≤ st.dinp.length) (hw : C ≤ weights.length)
    (hdw : C ≤ st.dweight.length) (hdb : C ≤ st.dbias.length)
    (hm : p < means.length) (hr : p < rstds.length) :
    bwdPosAt input weights dout means rstds C p (bufsAdd st d)
      = Option.map (fun s => bufsAdd s d)
          (bwdPosAt input weights dout means rstds C p st) := by
  have hred := bwdReduce_spec (means.getD p 0) (rstds.getD p 0) input weights dout
    (C * p) C 0 0 0 (by omega) (by omega) (by omega)
  simp only [bwdPosAt, getF_lt means p 0 hm, getF_lt rstds p 0 hr,
    List.range_eq_range', hred]
  exact bwdAccum_add _ _ _ _ input weights dout (C * p) C 0 st d ei ew eb
    (by omega) (by omega) (by omega) (by omega) (by omega) (by omega)

theorem bwd_flat_add {α : Type} [Field α] (input weights dout means rstds : List α)
    (C : Nat) (hw : C ≤ weights.length) :
    ∀ (n P : Nat) (st d : BwdBufs α),
      d.dinp.length = st.dinp.length → d.dweight.length = st.dweight.length →
      d.dbias.length = st.dbias.length →
      (P + n) * C ≤ input.length → (P + n) * C ≤ dout.length →
      (P + n) * C ≤ st.dinp.length → C ≤ st.dweight.length → C ≤ st.dbias.length →
      P + n ≤ means.length → P + n ≤ rstds.length →
      loopM (fun p st => bwdPosAt input weights dout means rstds C p st)
          (List.range' P n) (bufsAdd st d)
        = Option.map (fun s => bufsAdd s d)
            (loopM (fun p st => bwdPosAt input weights dout means rstds C p st)
              (List.range' P n) st) := by
  intro n
  induction n with
  | zero =>
    intro P st d _ _ _ _ _ _ _ _ _ _
    rfl
  | succ n ih =>
    intro P st d ei ew eb hin hdo hdi hdw hdb hm hr
    have ha : (P + (n + 1)) * C = C * P + n * C + C := by ring
    have hb2 : (P + 1 + n) * C = C * P + n * C + C := by ring
    obtain ⟨st1, hrun1, hl1, hl2, hl3, _, _, _⟩ :=
      bwdPosAt_spec input weights dout means rstds C P st (by omega) (by omega)
        (by omega) hw hdw hdb (by omega) (by omega)
    rw [List.range'_succ, loopM, loopM,
      bwdPosAt_add input weights dout means rstds C P st d ei ew eb
        (by omega) (by omega) (by omega) hw hdw hdb (by omega) (by omega),
      hrun1]
    show loopM (fun p st => bwdPosAt input weights dout means rstds C p st)
        (List.range' (P + 1) n) (bufsAdd st1 d) = _
    rw [ih (P + 1) st1 d (by omega) (by omega) (by omega) (by omega) (by omega)
      (by omega) (by omega) (by omega) (by omega) (by omega)]

theorem bwd_call_add {α : Type} [Field α] (input weights dout means rstds : List α)
    (B T C : Nat) (st d : BwdBufs α)
    (ei : d.dinp.length = st.dinp.length) (ew : d.dweight.length = st.dweight.length)
    (eb : d.dbias.length = st.dbias.length)
    (hin : B * T * C ≤ input.length) (hdo : B * T * C ≤ dout.length)
    (hdi : B * T * C ≤ st.dinp.length) (hw : C ≤ weights.length)
    (hdw : C ≤ st.dweight.length) (hdb : C ≤ st.dbias.length)
    (hm : B * T ≤ means.length) (hr : B * T ≤ rstds.length) :
    layernorm_backward input weights dout means rstds B T C (bufsAdd st d)
      = Option.map (fun s => bufsAdd s d)
          (layernorm_backward input weights dout means rstds B T C st) := by
  have hflat1 : layernorm_backward input weights dout means rstds B T C (bufsAdd st d)
      = loopM (fun p st => bwdPosAt input weights dout means rstds C p st)
          (List.range (B * T)) (bufsAdd st d) := by
    rw [layernorm_backward]
    exact loopM_nested _ T B (bufsAdd st d)
  have hflat2 : layernorm_backward input weights dout means rstds B T C st
      = loopM (fun p st => bwdPosAt input weights dout means rstds C p st)
          (List.range (B * T)) st := by
    rw [layernorm_backward]
    exact loopM_nested _ T B st
  rw [hflat1, hflat2, List.range_eq_range']
  exact bwd_flat_add input weights dout means rstds C hw (B * T) 0 st d ei ew eb
    (by rw [Nat.zero_add]; exact hin) (by rw [Nat.zero_add]; exact hdo)
    (by rw [Nat.zero_add]; exact hdi) hdw hdb (by omega) (by omega)

/-! ### Shared positional lemmas used by the claim theorems -/

theorem getElem?_eq_getD {α : Type} (xs : List α) (i : Nat) (d : α)
    (h : i < xs.length) : xs[i]? = some (xs.getD i d) := by
  rw [List.getD_eq_getElem?_getD, List.getElem?_eq_getElem h]
  rfl

theorem posIdx_lt {B T b t : Nat} (hb : b < B) (ht : t < T) : b * T + t < B * T := by
  have h1 : (b + 1) * T ≤ B * T := Nat.mul_le_mul_right T (by omega)
  have h2 : (b + 1) * T = b * T + T := by ring
  omega

theorem posSlice_eq {α : Type} (inp1 inp2 : List α) (d : α) (C p : Nat)
    (h1 : p * C + C ≤ inp1.length) (h2 : p * C + C ≤ inp2.length)
    (hag : ∀ i, i < C → inp1.getD (p * C + i) d = inp2.getD (p * C + i) d) :
    (inp1.drop (p * C)).take C = (inp2.drop (p * C)).take C := by
  apply List.ext_getElem?
  intro j
  rcases Nat.lt_or_ge j C with hj | hj
  · rw [List.getElem?_take, List.getElem?_take, if_pos hj, if_pos hj,
      List.getElem?_drop, List.getElem?_drop,
      getElem?_eq_getD inp1 (p * C + j) d (by omega),
      getElem?_eq_getD inp2 (p * C + j) d (by omega), hag j hj]
  · rw [List.getElem?_take, List.getElem?_take, if_neg (by omega), if_neg (by omega)]

/-! ### Claim C1 -/

/-- C1: for every valid input (C positive, all buffers exactly the declared
sizes) the forward pass succeeds and, independently at each position (b,t),
stores at offset b*T + t the arithmetic mean of the C channel values and the
value pnh(variance + EPS) where variance is the biased variance (divide by
C), and writes output[b,t,i] = (input[b,t,i] - mean) * rstd * scale[i] +
shift[i] for every channel i. -/
theorem C1_forward_per_position {α : Type} [Field α] (pnh : α → α)
    (inp weights biases : List α) (B T C : Nat) (st : FwdBufs α)
    (hC : 0 < C)
    (hinp : inp.length = B * T * C) (hw : weights.length = C)
    (hb : biases.length = C) (hout : st.out.length = B * T * C)
    (hm : st.mean_array.length = B * T) (hr : st.rstd_array.length = B * T) :
    ∃ st2, layernorm_forward pnh inp weights biases B T C st = some st2 ∧
      ∀ b, b < B → ∀ t, t < T →
        st2.mean_array[b * T + t]? = some (flatMean inp C (b * T + t)) ∧
        st2.rstd_array[b * T + t]? = some (pnh (flatVar inp C (b * T + t) + EPS)) ∧
        ∀ i, i < C →
          st2.out[b * T * C + t * C + i]? =
            some ((inp.getD (b * T * C + t * C + i) 0 - flatMean inp C (b * T + t))
              * pnh (flatVar inp C (b * T + t) + EPS) * weights.getD i 0
              + biases.getD i 0) := by
  obtain ⟨st2, hrun, _, _, _, hform, _, _⟩ :=
    fwd_spec pnh inp weights biases B T C st (by omega) (by omega) (by omega)
      (by omega) (by omega) (by omega)
  refine ⟨st2, hrun, ?_⟩
  intro b hbB t htT
  have hp : b * T + t < B * T := posIdx_lt hbB htT
  obtain ⟨h1, h2, h3⟩ := hform (b * T + t) hp
  have hidx : ∀ i : Nat, b * T * C + t * C + i = (b * T + t) * C + i := by
    intro i
    ring
  refine ⟨h1, h2, ?_⟩
  intro i hi
  rw [hidx i]
  exact h3 i hi

/-- C1 witness: the hypotheses of C1_forward_per_position are satisfiable at
a concrete input. -/
theorem C1_forward_per_position_witness :
    (layernorm_forward (id : ℚ → ℚ) [1, 2] [1, 1] [0, 0] 1 1 2
      ⟨[0, 0], [0], [0]⟩).isSome = true := by
  obtain ⟨st2, hrun, _⟩ :=
    C1_forward_per_position (id : ℚ → ℚ) [1, 2] [1, 1] [0, 0] 1 1 2
      ⟨[0, 0], [0], [0]⟩ (by decide) rfl rfl rfl rfl rfl rfl
  rw [hrun]
  rfl

/-! ### Claim C2 -/

/-- C2: the backward pass is the position loop of bwdPosAt, and at each
position (b,t), using the saved mean and rstd read from the statistics
buffers (not recomputed), a first reduction pass forms dnorm_i = scale[i] *
upstream_grad[i], sums dnorm_i and dnorm_i * normalized_i over all C
channels and divides both sums by C; only the finalized averages enter the
per-channel updates of the second pass, which adds upstream_grad[i] to the
shift gradient, normalized_i * upstream_grad[i] to the scale gradient, and
rstd * (dnorm_i - dnorm_mean - normalized_i * dnorm_norm_mean) to the input
gradient. -/
theorem C2_backward_two_pass {α : Type} [Field α]
    (input weights dout means rstds : List α) (B T C : Nat) (st : BwdBufs α)
    (hin : input.length = B * T * C) (hdo : dout.length = B * T * C)
    (hdi : st.dinp.length = B * T * C) (hw : weights.length = C)
    (hdw : st.dweight.length = C) (hdb : st.dbias.length = C)
    (hm : means.length = B * T) (hr : rstds.length = B * T)
    (b t : Nat) (hb : b < B) (ht : t < T) :
    layernorm_backward input weights dout means rstds B T C st
        = loopM (fun p st => bwdPosAt input weights dout means rstds C p st)
            (List.range (B * T)) st ∧
    bwdDnormMean weights dout C (b * T + t)
        = ((List.range C).map
            (fun i => bwdDnorm weights dout C (b * T + t) i)).sum / (C : α) ∧
    bwdDnormNormMean input weights dout means rstds C (b * T + t)
        = ((List.range C).map (fun i => bwdDnorm weights dout C (b * T + t) i *
            bwdNorm input means rstds C (b * T + t) i)).sum / (C : α) ∧
    ∃ st2, bwdPosAt input weights dout means rstds C (b * T + t) st = some st2 ∧
      ∀ i, i < C →
        st2.dbias[i]? = some (st.dbias.getD i 0
          + dout.getD (C * (b * T + t) + i) 0) ∧
        st2.dweight[i]? = some (st.dweight.getD i 0
          + bwdNorm input means rstds C (b * T + t) i
            * dout.getD (C * (b * T + t) + i) 0) ∧
        st2.dinp[C * (b * T + t) + i]? = some (st.dinp.getD (C * (b * T + t) + i) 0
          + rstds.getD (b * T + t) 0 * (bwdDnorm weights dout C (b * T + t) i
            - bwdDnormMean weights dout C (b * T + t)
            - bwdNorm input means rstds C (b * T + t) i
              * bwdDnormNormMean input weights dout means rstds C (b * T + t))) := by
  have hp : b * T + t < B * T := posIdx_lt hb ht
  have hCp : C * (b * T + t) + C = C * ((b * T + t) + 1) := by ring
  have hCBT : C * (B * T) = B * T * C := by ring
  have hCle : C * ((b * T + t) + 1) ≤ C * (B * T) := Nat.mul_le_mul_left C (by omega)
  refine ⟨?_, rfl, rfl, ?_⟩
  · rw [layernorm_backward]
    exact loopM_nested _ T B st
  · obtain ⟨st2, hrun, _, _, _, hform, _, _⟩ :=
      bwdPosAt_spec input weights dout means rstds C (b * T + t) st
        (by omega) (by omega) (by omega) (by omega) (by omega) (by omega)
        (by omega) (by omega)
    refine ⟨st2, hrun, ?_⟩
    intro i hi
    obtain ⟨h1, h2, h3⟩ := hform i hi
    refine ⟨h1, h2, ?_⟩
    rw [h3]
    congr 1
    ring

/-- C2 witness: the hypotheses of C2_backward_two_pass are satisfiable at a
concrete input. -/
theorem C2_backward_two_pass_witness :
    layernorm_backward ([1] : List ℚ) [1] [1] [2] [3] 1 1 1 ⟨[0], [0], [0]⟩
      = loopM (fun p st => bwdPosAt ([1] : List ℚ) [1] [1] [2] [3] 1 p st)
          (List.range (1 * 1)) ⟨[0], [0], [0]⟩ :=
  (C2_backward_two_pass ([1] : List ℚ) [1] [1] [2] [3] 1 1 1 ⟨[0], [0], [0]⟩
    rfl rfl rfl rfl rfl rfl rfl rfl 0 0 (by decide) (by decide)).1

/-! ### Claim C3 -/

/-- C3 counterexample: an invocation whose output buffer length (2) differs
from the declared size B*T*C = 1 does not fail: the call completes.  There
is no InvalidShape detection in the code. -/
theorem C3_counterexample :
    ([(0 : ℚ), 0] : List ℚ).length ≠ 1 * 1 * 1 ∧
    (layernorm_forward (id : ℚ → ℚ) [1] [1] [0] 1 1 1
      ⟨[0, 0], [0], [0]⟩).isSome = true := by
  constructor
  · decide
  · decide

/-- C3 amended: the code performs no shape validation at all.  Whenever
every buffer is at least as long as the size declared by (B,T,C) — equality
is not required — both kernels run to completion; a too-short buffer is
detected only by the out-of-bounds access itself during computation. -/
theorem C3_no_shape_validation {α : Type} [Field α] (pnh : α → α)
    (inp weights biases input dout means rstds : List α) (B T C : Nat)
    (stf : FwdBufs α) (stb : BwdBufs α)
    (hi : B * T * C ≤ inp.length) (ho : B * T * C ≤ stf.out.length)
    (hw : C ≤ weights.length) (hb : C ≤ biases.length)
    (hm : B * T ≤ stf.mean_array.length) (hr : B * T ≤ stf.rstd_array.length)
    (hin : B * T * C ≤ input.length) (hdo : B * T * C ≤ dout.length)
    (hdi : B * T * C ≤ stb.dinp.length) (hdw : C ≤ stb.dweight.length)
    (hdb : C ≤ stb.dbias.length)
    (hm2 : B * T ≤ means.length) (hr2 : B * T ≤ rstds.length) :
    (layernorm_forward pnh inp weights biases B T C stf).isSome = true ∧
    (layernorm_backward input weights dout means rstds B T C stb).isSome = true := by
  obtain ⟨stf2, hrunf, _⟩ := fwd_spec pnh inp weights biases B T C stf hi ho hw hb hm hr
  obtain ⟨stb2, hrunb, _⟩ := bwd_spec input weights dout means rstds B T C stb
    hin hdo hdi hw hdw hdb hm2 hr2
  rw [hrunf, hrunb]
  exact ⟨rfl, rfl⟩

/-- C3 witness: C3_no_shape_validation applies to a concrete invocation in
which every buffer is strictly longer than its declared size. -/
theorem C3_no_shape_validation_witness :
    (layernorm_forward (id : ℚ → ℚ) [1, 9] [1, 9] [0, 9] 1 1 1
      ⟨[0, 0], [0, 0], [0, 0]⟩).isSome = true ∧
    (layernorm_backward ([1, 9] : List ℚ) [1, 9] [1, 9] [2, 9] [3, 9] 1 1 1
      ⟨[0, 0], [0, 0], [0, 0]⟩).isSome = true :=
  C3_no_shape_validation (id : ℚ → ℚ) [1, 9] [1, 9] [0, 9] [1, 9] [1, 9] [2, 9]
    [3, 9] 1 1 1 ⟨[0, 0], [0, 0], [0, 0]⟩ ⟨[0, 0], [0, 0], [0, 0]⟩
    (by decide) (by decide) (by decide) (by decide) (by decide) (by decide)
    (by decide) (by decide) (by decide) (by decide) (by decide) (by decide)
    (by decide)

/-! ### Claim C4 -/

/-- C4 counterexample: an invocation with C = 0 is not rejected: the forward
call completes normally instead of failing with a DegenerateInput error. -/
theorem C4_counterexample :
    (layernorm_forward (id : ℚ → ℚ) [] [] [] 1 1 0 ⟨[], [0], [0]⟩).isSome
      = true := by
  decide

/-- C4 amended: the code has no C == 0 check.  A degenerate invocation runs
the position loop over an empty channel slice and stores as mean the value
of the division 0 / 0 (NaN in IEEE f32 arithmetic; the field embedding
evaluates division by zero to 0). -/
theorem C4_degenerate_accepted {α : Type} [Field α] (pnh : α → α)
    (inp weights biases : List α) (B T : Nat) (st : FwdBufs α)
    (hm : B * T ≤ st.mean_array.length) (hr : B * T ≤ st.rstd_array.length) :
    ∃ st2, layernorm_forward pnh inp weights biases B T 0 st = some st2 ∧
      ∀ p, p < B * T → st2.mean_array[p]? = some ((0 : α) / 0) := by
  have h0 : B * T * 0 = 0 := by ring
  obtain ⟨st2, hrun, _, _, _, hform, _, _⟩ :=
    fwd_spec pnh inp weights biases B T 0 st (by omega) (by omega) (by omega)
      (by omega) hm hr
  refine ⟨st2, hrun, ?_⟩
  intro p hp
  rw [(hform p hp).1]
  congr 1
  simp [flatMean]

/-- C4 witness: C4_degenerate_accepted applies to a concrete degenerate
invocation. -/
theorem C4_degenerate_accepted_witness :
    ∃ st2, layernorm_forward (id : ℚ → ℚ) [] [] [] 1 1 0 ⟨[], [0], [0]⟩
        = some st2 ∧
      ∀ p, p < 1 * 1 → st2.mean_array[p]? = some ((0 : ℚ) / 0) :=
  C4_degenerate_accepted (id : ℚ → ℚ) [] [] [] 1 1 ⟨[], [0], [0]⟩
    (by decide) (by decide)

/-! ### Claim C5 -/

/-- C5: invoking the backward pass twice in succession with identical
arguments on the same gradient buffers leaves each gradient buffer holding
exactly double the delta that the first invocation added: the per-call
contributions to dinp, dweight and dbias are additive, never overwriting. -/
theorem C5_double_accumulation {α : Type} [Field α]
    (input weights dout means rstds : List α) (B T C : Nat) (st : BwdBufs α)
    (hin : input.length = B * T * C) (hdo : dout.length = B * T * C)
    (hdi : st.dinp.length = B * T * C) (hw : weights.length = C)
    (hdw : st.dweight.length = C) (hdb : st.dbias.length = C)
    (hm : means.length = B * T) (hr : rstds.length = B * T) :
    ∃ st1 st2,
      layernorm_backward input weights dout means rstds B T C st = some st1 ∧
      layernorm_backward input weights dout means rstds B T C st1 = some st2 ∧
      (∀ j, j < st.dinp.length →
        st2.dinp.getD j 0 - st.dinp.getD j 0
          = 2 * (st1.dinp.getD j 0 - st.dinp.getD j 0)) ∧
      (∀ j, j < st.dweight.length →
        st2.dweight.getD j 0 - st.dweight.getD j 0
          = 2 * (st1.dweight.getD j 0 - st.dweight.getD j 0)) ∧
      (∀ j, j < st.dbias.length →
        st2.dbias.getD j 0 - st.dbias.getD j 0
          = 2 * (st1.dbias.getD j 0 - st.dbias.getD j 0)) := by
  obtain ⟨st1, hrun1, hl1, hl2, hl3, _, _⟩ :=
    bwd_spec input weights dout means rstds B T C st (by omega) (by omega)
      (by omega) (by omega) (by omega) (by omega) (by omega) (by omega)
  set dl : BwdBufs α :=
    ⟨List.zipWith (fun x y => y - x) st.dinp st1.dinp,
     List.zipWith (fun x y => y - x) st.dweight st1.dweight,
     List.zipWith (fun x y => y - x) st.dbias st1.dbias⟩ with hdl
  have hli : dl.dinp.length = st.dinp.length := by
    rw [hdl]
    show (List.zipWith _ st.dinp st1.dinp).length = _
    rw [List.length_zipWith]
    omega
  have hlw : dl.dweight.length = st.dweight.length := by
    rw [hdl]
    show (List.zipWith _ st.dweight st1.dweight).length = _
    rw [List.length_zipWith]
    omega
  have hlb : dl.dbias.length = st.dbias.length := by
    rw [hdl]
    show (List.zipWith _ st.dbias st1.dbias).length = _
    rw [List.length_zipWith]
    omega
  have hadd : bufsAdd st dl = st1 := by
    refine BwdBufs.ext ?_ ?_ ?_
    · exact zip_add_sub st.dinp st1.dinp (by omega)
    · exact zip_add_sub st.dweight st1.dweight (by omega)
    · exact zip_add_sub st.dbias st1.dbias (by omega)
  have hsecond : layernorm_backward input weights dout means rstds B T C st1
      = some (bufsAdd st1 dl) := by
    calc layernorm_backward input weights dout means rstds B T C st1
        = layernorm_backward input weights dout means rstds B T C (bufsAdd st dl) := by
          rw [hadd]
      _ = Option.map (fun s => bufsAdd s dl)
            (layernorm_backward input weights dout means rstds B T C st) :=
          bwd_call_add input weights dout means rstds B T C st dl hli hlw hlb
            (by omega) (by omega) (by omega) (by omega) (by omega) (by omega)
            (by omega) (by omega)
      _ = some (bufsAdd st1 dl) := by rw [hrun1]; rfl
  have e1i : st1.dinp = List.zipWith (· + ·) st.dinp dl.dinp :=
    (congrArg BwdBufs.dinp hadd).symm
  have e1w : st1.dweight = List.zipWith (· + ·) st.dweight dl.dweight :=
    (congrArg BwdBufs.dweight hadd).symm
  have e1b : st1.dbias = List.zipWith (· + ·) st.dbias dl.dbias :=
    (congrArg BwdBufs.dbias hadd).symm
  refine ⟨st1, bufsAdd st1 dl, hrun1, hsecond, ?_, ?_, ?_⟩
  · intro j hj
    have h2 : (bufsAdd st1 dl).dinp.getD j 0
        = st1.dinp.getD j 0 + dl.dinp.getD j 0 :=
      zadd_getD_lt st1.dinp dl.dinp j (by omega) (by omega)
    have h1 : st1.dinp.getD j 0 = st.dinp.getD j 0 + dl.dinp.getD j 0 := by
      rw [e1i]
      exact zadd_getD_lt st.dinp dl.dinp j hj hli
    rw [h2, h1]
    ring
  · intro j hj
    have h2 : (bufsAdd st1 dl).dweight.getD j 0
        = st1.dweight.getD j 0 + dl.dweight.getD j 0 :=
      zadd_getD_lt st1.dweight dl.dweight j (by omega) (by omega)
    have h1 : st1.dweight.getD j 0 = st.dweight.getD j 0 + dl.dweight.getD j 0 := by
      rw [e1w]
      exact zadd_getD_lt st.dweight dl.dweight j hj hlw
    rw [h2, h1]
    ring
  · intro j hj
    have h2 : (bufsAdd st1 dl).dbias.getD j 0
        = st1.dbias.getD j 0 + dl.dbias.getD j 0 :=
      zadd_getD_lt st1.dbias dl.dbias j (by omega) (by omega)
    have h1 : st1.dbias.getD j 0 = st.dbias.getD j 0 + dl.dbias.getD j 0 := by
      rw [e1b]
      exact zadd_getD_lt st.dbias dl.dbias j hj hlb
    rw [h2, h1]
    ring

/-- C5 witness: the hypotheses of C5_double_accumulation are satisfiable at
a concrete input. -/
theorem C5_double_accumulation_witness :
    (layernorm_backward ([1] : List ℚ) [1] [1] [2] [3] 1 1 1
      ⟨[0], [0], [0]⟩).isSome = true := by
  obtain ⟨st1, st2, hrun1, _⟩ :=
    C5_double_accumulation ([1] : List ℚ) [1] [1] [2] [3] 1 1 1 ⟨[0], [0], [0]⟩
      rfl rfl rfl rfl rfl rfl rfl rfl
  rw [hrun1]
  rfl

/-! ### Claim C6 -/

/-- C6: the forward pass is deterministic (it is a function of its
arguments) and per-position pure: take two invocations sharing scale, shift
and the hard-wired epsilon, whose input tensors agree on the channel slice
of one position (b,t) but may differ everywhere else, and whose destination
buffers hold arbitrary unrelated prior contents; both calls succeed and
produce identical output values and identical statistics at (b,t).  In
particular the result at (b,t) does not depend on any other position of the
input nor on the prior contents of the output and statistics buffers: the
destination is overwritten, not accumulated into. -/
theorem C6_forward_pure {α : Type} [Field α] (pnh : α → α)
    (inp1 inp2 weights biases : List α) (B T C : Nat) (st1 st2 : FwdBufs α)
    (b t : Nat) (hb : b < B) (ht : t < T)
    (hi1 : inp1.length = B * T * C) (hi2 : inp2.length = B * T * C)
    (hw : weights.length = C) (hbi : biases.length = C)
    (ho1 : st1.out.length = B * T * C) (hm1 : st1.mean_array.length = B * T)
    (hr1 : st1.rstd_array.length = B * T)
    (ho2 : st2.out.length = B * T * C) (hm2 : st2.mean_array.length = B * T)
    (hr2 : st2.rstd_array.length = B * T)
    (hslice : ∀ i, i < C →
      inp1.getD (b * T * C + t * C + i) 0 = inp2.getD (b * T * C + t * C + i) 0) :
    ∃ r1 r2, layernorm_forward pnh inp1 weights biases B T C st1 = some r1 ∧
      layernorm_forward pnh inp2 weights biases B T C st2 = some r2 ∧
      r1.mean_array[b * T + t]? = r2.mean_array[b * T + t]? ∧
      r1.rstd_array[b * T + t]? = r2.rstd_array[b * T + t]? ∧
      ∀ i, i < C → r1.out[b * T * C + t * C + i]? = r2.out[b * T * C + t * C + i]? := by
  have hp : b * T + t < B * T := posIdx_lt hb ht
  have hmul : ((b * T + t) + 1) * C ≤ B * T * C := by
    have h1 : ((b * T + t) + 1) * C ≤ (B * T) * C := Nat.mul_le_mul_right C (by omega)
    omega
  have hmul2 : ((b * T + t) + 1) * C = (b * T + t) * C + C := by ring
  have hidx : ∀ i : Nat, b * T * C + t * C + i = (b * T + t) * C + i := by
    intro i
    ring
  have hag : ∀ i, i < C →
      inp1.getD ((b * T + t) * C + i) 0 = inp2.getD ((b * T + t) * C + i) 0 := by
    intro i hi
    rw [← hidx i]
    exact hslice i hi
  have hsl : (inp1.drop ((b * T + t) * C)).take C
      = (inp2.drop ((b * T + t) * C)).take C :=
    posSlice_eq inp1 inp2 0 C (b * T + t) (by omega) (by omega) hag
  have hmean : flatMean inp1 C (b * T + t) = flatMean inp2 C (b * T + t) := by
    rw [flatMean, flatMean, hsl]
  have hvar : flatVar inp1 C (b * T + t) = flatVar inp2 C (b * T + t) := by
    rw [flatVar, flatVar, hsl, hmean]
  obtain ⟨r1, hrun1, _, _, _, hform1, _, _⟩ :=
    fwd_spec pnh inp1 weights biases B T C st1 (by omega) (by omega) (by omega)
      (by omega) (by omega) (by omega)
  obtain ⟨r2, hrun2, _, _, _, hform2, _, _⟩ :=
    fwd_spec pnh inp2 weights biases B T C st2 (by omega) (by omega) (by omega)
      (by omega) (by omega) (by omega)
  obtain ⟨f1m, f1r, f1o⟩ := hform1 (b * T + t) hp
  obtain ⟨f2m, f2r, f2o⟩ := hform2 (b * T + t) hp
  refine ⟨r1, r2, hrun1, hrun2, ?_, ?_, ?_⟩
  · rw [f1m, f2m, hmean]
  · rw [f1r, f2r, hvar]
  · intro i hi
    rw [hidx i, f1o i hi, f2o i hi, hmean, hvar, hag i hi]

/-- C6 witness: the hypotheses of C6_forward_pure are satisfiable at a pair
of concrete invocations differing outside the inspected position and in the
prior buffer contents. -/
theorem C6_forward_pure_witness :
    (layernorm_forward (id : ℚ → ℚ) [1, 5] [1] [0] 1 2 1
      ⟨[9, 9], [9, 9], [9, 9]⟩).isSome = true := by
  obtain ⟨r1, r2, hrun1, _⟩ :=
    C6_forward_pure (id : ℚ → ℚ) [1, 5] [1, 7] [1] [0] 1 2 1
      ⟨[9, 9], [9, 9], [9, 9]⟩ ⟨[3, 3], [3, 3], [3, 3]⟩ 0 0 (by decide) (by decide)
      rfl rfl rfl rfl rfl rfl rfl rfl rfl rfl (by decide)
  rw [hrun1]
  rfl

/-! ### Claim C7 -/

set_option maxHeartbeats 1600000 in
/-- C7: on the concrete input B=1, T=1, C=4, input=[1,2,3,4],
scale=[1,1,1,1], shift=[0,0,0,0], with the power primitive interpreted as
the real function x ^ (-1/2) and the hard-coded EPS = 1e-5, the forward pass
produces mean = 2.5, biased variance = 1.25, rstd within 1e-3 of 0.8944,
and outputs within 1e-3 of [-1.3416, -0.4472, 0.4472, 1.3416]; the output
equals the normalized vector since scale is all ones and shift all zeros. -/
theorem C7_concrete_forward :
    ∃ st2, layernorm_forward (fun x : ℝ => x ^ (-(1 : ℝ) / 2))
        [1, 2, 3, 4] [1, 1, 1, 1] [0, 0, 0, 0] 1 1 4 ⟨[0, 0, 0, 0], [0], [0]⟩
        = some st2 ∧
      flatMean ([1, 2, 3, 4] : List ℝ) 4 0 = 5 / 2 ∧
      flatVar ([1, 2, 3, 4] : List ℝ) 4 0 = 5 / 4 ∧
      st2.mean_array[0]? = some (5 / 2) ∧
      (∃ r : ℝ, st2.rstd_array[0]? = some r ∧ |r - 0.8944| < 1 / 1000) ∧
      (∃ o0 o1 o2 o3 : ℝ,
        st2.out[0]? = some o0 ∧ st2.out[1]? = some o1 ∧
        st2.out[2]? = some o2 ∧ st2.out[3]? = some o3 ∧
        |o0 - (-1.3416)| < 1 / 1000 ∧ |o1 - (-0.4472)| < 1 / 1000 ∧
        |o2 - 0.4472| < 1 / 1000 ∧ |o3 - 1.3416| < 1 / 1000) := by
  obtain ⟨st2, hrun, _, _, _, hform, _, _⟩ :=
    fwd_spec (fun x : ℝ => x ^ (-(1 : ℝ) / 2)) [1, 2, 3, 4] [1, 1, 1, 1]
      [0, 0, 0, 0] 1 1 4 ⟨[0, 0, 0, 0], [0], [0]⟩ (by norm_num) (by norm_num)
      (by norm_num) (by norm_num) (by norm_num) (by norm_num)
  obtain ⟨hm0, hr0, ho⟩ := hform 0 (by norm_num)
  have hmean : flatMean ([1, 2, 3, 4] : List ℝ) 4 0 = 5 / 2 := by
    simp only [flatMean]
    norm_num
  have hvar : flatVar ([1, 2, 3, 4] : List ℝ) 4 0 = 5 / 4 := by
    simp only [flatVar, flatMean]
    norm_num
  have hq : flatVar ([1, 2, 3, 4] : List ℝ) 4 0 + EPS = 125001 / 100000 := by
    rw [hvar]
    simp only [EPS]
    norm_num
  have hq0 : (0 : ℝ) ≤ 125001 / 100000 := by norm_num
  have hneg : (-(1 : ℝ) / 2) = -(1 / 2 : ℝ) := by norm_num
  have hrw : (125001 / 100000 : ℝ) ^ (-(1 : ℝ) / 2)
      = (Real.sqrt (125001 / 100000))⁻¹ := by
    rw [hneg, Real.rpow_neg hq0, ← Real.sqrt_eq_rpow]
  have hs0 : 0 ≤ Real.sqrt (125001 / 100000) := Real.sqrt_nonneg _
  have hs2 : Real.sqrt (125001 / 100000) ^ 2 = 125001 / 100000 := Real.sq_sqrt hq0
  have hslo : 1.1174 < Real.sqrt (125001 / 100000) := by nlinarith [hs2, hs0]
  have hshi : Real.sqrt (125001 / 100000) < 1.1188 := by nlinarith [hs2, hs0]
  have hspos : 0 < Real.sqrt (125001 / 100000) := by linarith
  have hmul : (Real.sqrt (125001 / 100000))⁻¹ * Real.sqrt (125001 / 100000) = 1 :=
    inv_mul_cancel₀ (ne_of_gt hspos)
  have hrpos : 0 < (Real.sqrt (125001 / 100000))⁻¹ := inv_pos.mpr hspos
  have hlo : (0.8938 : ℝ) < (125001 / 100000 : ℝ) ^ (-(1 : ℝ) / 2) := by
    rw [hrw]
    nlinarith [hmul, hslo, hshi, hrpos]
  have hhi : (125001 / 100000 : ℝ) ^ (-(1 : ℝ) / 2) < 0.8950 := by
    rw [hrw]
    nlinarith [hmul, hslo, hshi, hrpos]
  have h0 := ho 0 (by norm_num)
  have h1 := ho 1 (by norm_num)
  have h2 := ho 2 (by norm_num)
  have h3 := ho 3 (by norm_num)
  rw [hmean] at hm0
  refine ⟨st2, hrun, hmean, hvar, hm0, ⟨_, hr0, ?_⟩,
    ⟨_, _, _, _, h0, h1, h2, h3, ?_, ?_, ?_, ?_⟩⟩
  · rw [hq]
    show |(125001 / 100000 : ℝ) ^ (-(1 : ℝ) / 2) - 0.8944| < 1 / 1000
    rw [abs_lt]
    constructor
    · nlinarith [hlo, hhi]
    · nlinarith [hlo, hhi]
  · rw [hmean, hq,
      (rfl : ([1, 2, 3, 4] : List ℝ).getD (0 * 4 + 0) 0 = 1),
      (rfl : ([1, 1, 1, 1] : List ℝ).getD 0 0 = 1),
      (rfl : ([0, 0, 0, 0] : List ℝ).getD 0 0 = 0)]
    show |(1 - 5 / 2) * ((125001 / 100000 : ℝ) ^ (-(1 : ℝ) / 2)) * 1 + 0
        - (-1.3416)| < 1 / 1000
    rw [abs_lt]
    constructor
    · nlinarith [hlo, hhi]
    · nlinarith [hlo, hhi]
  · rw [hmean, hq,
      (rfl : ([1, 2, 3, 4] : List ℝ).getD (0 * 4 + 1) 0 = 2),
      (rfl : ([1, 1, 1, 1] : List ℝ).getD 1 0 = 1),
      (rfl : ([0, 0, 0, 0] : List ℝ).getD 1 0 = 0)]
    show |(2 - 5 / 2) * ((125001 / 100000 : ℝ) ^ (-(1 : ℝ) / 2)) * 1 + 0
        - (-0.4472)| < 1 / 1000
    rw [abs_lt]
    constructor
    · nlinarith [hlo, hhi]
    · nlinarith [hlo, hhi]
  · rw [hmean, hq,
      (rfl : ([1, 2, 3, 4] : List ℝ).getD (0 * 4 + 2) 0 = 3),
      (rfl : ([1, 1, 1, 1] : List ℝ).getD 2 0 = 1),
      (rfl : ([0, 0, 0, 0] : List ℝ).getD 2 0 = 0)]
    show |(3 - 5 / 2) * ((125001 / 100000 : ℝ) ^ (-(1 : ℝ) / 2)) * 1 + 0
        - 0.4472| < 1 / 1000
    rw [abs_lt]
    constructor
    · nlinarith [hlo, hhi]
    · nlinarith [hlo, hhi]
  · rw [hmean, hq,
      (rfl : ([1, 2, 3, 4] : List ℝ).getD (0 * 4 + 3) 0 = 4),
      (rfl : ([1, 1, 1, 1] : List ℝ).getD 3 0 = 1),
      (rfl : ([0, 0, 0, 0] : List ℝ).getD 3 0 = 0)]
    show |(4 - 5 / 2) * ((125001 / 100000 : ℝ) ^ (-(1 : ℝ) / 2)) * 1 + 0
        - 1.3416| < 1 / 1000
    rw [abs_lt]
    constructor
    · nlinarith [hlo, hhi]
    · nlinarith [hlo, hhi]

/-! ### Claim C8 -/

/-- C8: neither kernel mutates anything but its designated outputs.  Viewing
each call as a transformer of the full argument state, a successful forward
call leaves the input tensor and the scale and shift vectors unchanged, and
a successful backward call leaves the upstream gradient (even though the
source takes dout by mutable borrow, it never writes it), the original
input, the scale vector and both statistics buffers unchanged. -/
theorem C8_frame {α : Type} [Field α] (pnh : α → α) (B T C B2 T2 C2 : Nat)
    (wf wf2 : FwdWorld α) (wb wb2 : BwdWorld α)
    (hf : layernorm_forward_world pnh B T C wf = some wf2)
    (hbk : layernorm_backward_world B2 T2 C2 wb = some wb2) :
    wf2.inp = wf.inp ∧ wf2.weights = wf.weights ∧ wf2.biases = wf.biases ∧
    wb2.dout = wb.dout ∧ wb2.input = wb.input ∧ wb2.weights = wb.weights ∧
    wb2.means = wb.means ∧ wb2.rstds = wb.rstds := by
  rw [layernorm_forward_world, Option.map_eq_some'] at hf
  rw [layernorm_backward_world, Option.map_eq_some'] at hbk
  obtain ⟨stf, _, hwf⟩ := hf
  obtain ⟨stb, _, hwb⟩ := hbk
  rw [← hwf, ← hwb]
  exact ⟨rfl, rfl, rfl, rfl, rfl, rfl, rfl, rfl⟩

/-- C8 witness: the hypotheses of C8_frame are satisfiable at concrete
successful calls. -/
theorem C8_frame_witness :
    ([(2 : ℚ)] = [(2 : ℚ)]) ∧ ([(3 : ℚ)] = [(3 : ℚ)]) := by
  obtain ⟨stf2, hrunf, _⟩ :=
    fwd_spec (id : ℚ → ℚ) [2] [3] [5] 1 1 1 ⟨[0], [0], [0]⟩ (by decide)
      (by decide) (by decide) (by decide) (by decide) (by decide)
  obtain ⟨stb2, hrunb, _⟩ :=
    bwd_spec ([1] : List ℚ) [1] [1] [2] [3] 1 1 1 ⟨[0], [0], [0]⟩ (by decide)
      (by decide) (by decide) (by decide) (by decide) (by decide) (by decide)
      (by decide)
  obtain ⟨h1, h2, _⟩ :=
    C8_frame (id : ℚ → ℚ) 1 1 1 1 1 1
      ⟨[0], [0], [0], [2], [3], [5]⟩
      ⟨stf2.out, stf2.mean_array, stf2.rstd_array, [2], [3], [5]⟩
      ⟨[0], [0], [0], [1], [1], [1], [2], [3]⟩
      ⟨stb2.dinp, stb2.dweight, stb2.dbias, [1], [1], [1], [2], [3]⟩
      (by simp only [layernorm_forward_world]; rw [hrunf]; rfl)
      (by simp only [layernorm_backward_world]; rw [hrunb]; rfl)
  exact ⟨h1, h2⟩

/-! ### Claim C9 -/

/-- C9 counterexample: epsilon is not a caller-supplied configuration value.
At a concrete input the stored rstd differs from the spec-modelled
computation with the caller-chosen epsilon 1, because the code always uses
its hard-coded constant EPS = 1e-5: no invocation can make the forward pass
use a different epsilon. -/
theorem C9_counterexample :
    ∃ st2, layernorm_forward (id : ℚ → ℚ) [0] [1] [0] 1 1 1 ⟨[0], [0], [0]⟩
        = some st2 ∧
      st2.rstd_array[0]? ≠ some (specRstdWithEps (id : ℚ → ℚ) 1 [0] 1 0) := by
  obtain ⟨st2, hrun, _, _, _, hform, _, _⟩ :=
    fwd_spec (id : ℚ → ℚ) [0] [1] [0] 1 1 1 ⟨[0], [0], [0]⟩ (by decide)
      (by decide) (by decide) (by decide) (by decide) (by decide)
  have hr := (hform 0 (by decide)).2.1
  refine ⟨st2, hrun, ?_⟩
  rw [hr]
  intro hcontra
  have hv := Option.some.inj hcontra
  simp only [specRstdWithEps, id_eq, EPS] at hv
  norm_num [flatVar, flatMean] at hv

/-- C9 amended: the epsilon constant is hard-baked.  Every forward
invocation computes the stored rstd with the module constant EPS = 1e-5 —
that is, it agrees with the spec formula (variance + epsilon)^(-1/2)
exactly when epsilon is taken to be EPS, independent of any caller choice. -/
theorem C9_eps_hard_coded {α : Type} [Field α] (pnh : α → α)
    (inp weights biases : List α) (B T C : Nat) (st : FwdBufs α)
    (hi : B * T * C ≤ inp.length) (ho : B * T * C ≤ st.out.length)
    (hw : C ≤ weights.length) (hb : C ≤ biases.length)
    (hm : B * T ≤ st.mean_array.length) (hr : B * T ≤ st.rstd_array.length) :
    ∃ st2, layernorm_forward pnh inp weights biases B T C st = some st2 ∧
      ∀ p, p < B * T →
        st2.rstd_array[p]? = some (specRstdWithEps pnh EPS inp C p) := by
  obtain ⟨st2, hrun, _, _, _, hform, _, _⟩ :=
    fwd_spec pnh inp weights biases B T C st hi ho hw hb hm hr
  exact ⟨st2, hrun, fun p hp => (hform p hp).2.1⟩

/-- C9 witness: the hypotheses of C9_eps_hard_coded are satisfiable at a
concrete input. -/
theorem C9_eps_hard_coded_witness :
    ∃ st2, layernorm_forward (id : ℚ → ℚ) [0] [1] [0] 1 1 1 ⟨[0], [0], [0]⟩
        = some st2 ∧
      ∀ p, p < 1 * 1 →
        st2.rstd_array[p]? = some (specRstdWithEps (id : ℚ → ℚ) EPS [0] 1 p) :=
  C9_eps_hard_coded (id : ℚ → ℚ) [0] [1] [0] 1 1 1 ⟨[0], [0], [0]⟩
    (by decide) (by decide) (by decide) (by decide) (by decide) (by decide)

/-! ### Claim C10 -/

theorem loopM_pure {σ : Type} : ∀ (l : List Nat) (s : σ),
    loopM (fun _ s => some s) l s = some s
  | [], _ => rfl
  | _ :: rest, s => loopM_pure rest s

/-- C10: both kernels write only within the region declared by (B,T,C).
For every call whose buffers are at least the declared sizes, the forward
pass leaves out[j] unchanged for j ≥ B*T*C and the statistics unchanged at
indices ≥ B*T; the backward pass leaves dinp[j] unchanged for j ≥ B*T*C and
dweight[j], dbias[j] unchanged for j ≥ C; and when B = 0 or T = 0 both
calls return every buffer entirely unchanged. -/
theorem C10_write_bounds {α : Type} [Field α] (pnh : α → α)
    (inp weights biases input dout means rstds : List α) (B T C : Nat)
    (stf : FwdBufs α) (stb : BwdBufs α)
    (hi : B * T * C ≤ inp.length) (ho : B * T * C ≤ stf.out.length)
    (hw : C ≤ weights.length) (hb : C ≤ biases.length)
    (hm : B * T ≤ stf.mean_array.length) (hr : B * T ≤ stf.rstd_array.length)
    (hin : B * T * C ≤ input.length) (hdo : B * T * C ≤ dout.length)
    (hdi : B * T * C ≤ stb.dinp.length) (hdw : C ≤ stb.dweight.length)
    (hdb : C ≤ stb.dbias.length)
    (hm2 : B * T ≤ means.length) (hr2 : B * T ≤ rstds.length) :
    (∃ stf2, layernorm_forward pnh inp weights biases B T C stf = some stf2 ∧
      (∀ j, B * T * C ≤ j → stf2.out[j]? = stf.out[j]?) ∧
      (∀ q, B * T ≤ q → stf2.mean_array[q]? = stf.mean_array[q]? ∧
        stf2.rstd_array[q]? = stf.rstd_array[q]?)) ∧
    (∃ stb2, layernorm_backward input weights dout means rstds B T C stb
        = some stb2 ∧
      (∀ j, B * T * C ≤ j → stb2.dinp[j]? = stb.dinp[j]?) ∧
      (∀ j, C ≤ j → stb2.dweight[j]? = stb.dweight[j]? ∧
        stb2.dbias[j]? = stb.dbias[j]?)) ∧
    (B = 0 ∨ T = 0 →
      layernorm_forward pnh inp weights biases B T C stf = some stf ∧
      layernorm_backward input weights dout means rstds B T C stb = some stb) := by
  obtain ⟨stf2, hrunf, _, _, _, _, hpo, hps⟩ :=
    fwd_spec pnh inp weights biases B T C stf hi ho hw hb hm hr
  obtain ⟨stb2, hrunb, _, _, _, hpdi, hpwb⟩ :=
    bwd_spec input weights dout means rstds B T C stb hin hdo hdi hw hdw hdb hm2 hr2
  refine ⟨⟨stf2, hrunf, hpo, hps⟩, ⟨stb2, hrunb, hpdi, hpwb⟩, ?_⟩
  intro hBT
  rcases hBT with hB | hT
  · subst hB
    exact ⟨rfl, rfl⟩
  · subst hT
    constructor
    · rw [layernorm_forward]
      exact (loopM_congr (fun i s => rfl) (List.range B) stf).trans
        (loopM_pure (List.range B) stf)
    · rw [layernorm_backward]
      exact (loopM_congr (fun i s => rfl) (List.range B) stb).trans
        (loopM_pure (List.range B) stb)

/-- C10 witness: the hypotheses of C10_write_bounds are satisfiable at
concrete oversized buffers. -/
theorem C10_write_bounds_witness :
    (layernorm_forward (id : ℚ → ℚ) [1, 9] [1, 9] [0, 9] 1 1 1
      ⟨[0, 7], [0, 7], [0, 7]⟩).isSome = true := by
  obtain ⟨⟨stf2, hrunf, _⟩, _, _⟩ :=
    C10_write_bounds (id : ℚ → ℚ) [1, 9] [1, 9] [0, 9] [1, 9] [1, 9] [2, 9]
      [3, 9] 1 1 1 ⟨[0, 7], [0, 7], [0, 7]⟩ ⟨[0, 7], [0, 7], [0, 7]⟩
      (by decide) (by decide) (by decide) (by decide) (by decide) (by decide)
      (by decide) (by decide) (by decide) (by decide) (by decide) (by decide)
      (by decide)
  rw [hrunf]
  rfl
